import Mathlib

set_option linter.unusedTactic false
set_option linter.unreachableTactic false

/-!
Verification development for the `verz` version-bumping CLI.

The program under study is `src/index.ts` (the snapshot providing the
`version`, `release` and `tag` subcommands) together with `src/lib/exec.ts`.
Pure string manipulation (version resolution, release-suffix computation,
indent detection, JSON re-serialization) is embedded directly; the stateful
command actions are embedded as explicit state-passing functions over a
`World` that models the manifest file and the git repository, with the
subprocess wrapper `exec` modelled faithfully including its dry-run
short-circuit.

The external `semver` npm package is not part of the repository; its
`valid`/`inc` operations and the semver precedence order are modelled from
the specification's description of the standard semver rules (parse,
compare, increment).  Everything else is translated from the TypeScript
source.
-/

/-! ### Character-level string utilities

These mirror the JavaScript string operations the source uses
(`split`, `startsWith`, `match` with the specific regexes, `parseInt`,
`String.prototype.replace` with a plain-string pattern). -/

/-- Splits a character list at every occurrence of `c`
(JavaScript `s.split(c)`; the result always has at least one segment). -/
def splitOnChar (c : Char) : List Char → List (List Char)
  | [] => [[]]
  | x :: xs =>
    let r := splitOnChar c xs
    if x = c then [] :: r
    else
      match r with
      | h :: t => (x :: h) :: t
      | [] => [[x]]

/-- Breaks a character list at the first occurrence of `c`:
returns the part before it and, when `c` occurs, the part after it. -/
def breakAtChar (c : Char) : List Char → List Char × Option (List Char)
  | [] => ([], none)
  | x :: xs =>
    if x = c then ([], some xs)
    else
      let r := breakAtChar c xs
      (x :: r.1, r.2)

/-- Boolean list-prefix test. -/
def isPrefixOfList : List Char → List Char → Bool
  | [], _ => true
  | _ :: _, [] => false
  | p :: ps, x :: xs => p = x && isPrefixOfList ps xs

/-- JavaScript `s.startsWith(p)`. -/
def jsStartsWith (s p : String) : Bool :=
  isPrefixOfList p.toList s.toList

/-- Replaces the first occurrence of `pat` in a character list
(the semantics of JavaScript `String.prototype.replace` with a
plain-string pattern, which replaces only the first match). -/
def replaceFirstAux (pat rep : List Char) : List Char → List Char
  | [] => []
  | x :: xs =>
    if isPrefixOfList pat (x :: xs) then rep ++ (x :: xs).drop pat.length
    else x :: replaceFirstAux pat rep xs

/-- JavaScript `s.replace(pat, rep)` for a plain-string `pat`
(first occurrence only). -/
def replaceFirst (s pat rep : String) : String :=
  String.mk (replaceFirstAux pat.toList rep.toList s.toList)

/-- Numeric value of a list of decimal digit characters. -/
def digitsToNat (l : List Char) : Nat :=
  l.foldl (fun a c => a * 10 + (c.toNat - 48)) 0

/-- JavaScript `parseInt(s)` restricted to the shapes produced in this
program: leading whitespace is skipped, a leading run of decimal digits is
parsed, and `none` stands for `NaN` (no digits, e.g. the empty string that
`exec` returns in dry-run mode). -/
def parseIntJs (s : String) : Option Nat :=
  let l := s.toList.dropWhile fun c => c = ' ' || c = '\n' || c = '\t' || c = '\r'
  let ds := l.takeWhile Char.isDigit
  if ds.isEmpty then none else some (digitsToNat ds)

/-! ### Semver model

Modelled from the spec: the program delegates "is valid", "increment by
type with optional prerelease identifier" and version precedence to the
external `semver` capability (spec §1 non-goals, §6 external collaborators,
§4.1 resolver rules, glossary).  The grammar and total order below follow
the standard semver rules the spec appeals to: a version is
`MAJOR.MINOR.PATCH[-PRERELEASE][+BUILD]`, prerelease identifiers are
dot-separated, numeric identifiers compare numerically and sort below
alphanumeric ones, alphanumeric identifiers compare in ASCII order, and a
version with a prerelease sorts below the same triple without one. -/

/-- A prerelease (or build) identifier: numeric or alphanumeric. -/
inductive Ident where
  | num (n : Nat)
  | alnum (s : String)
deriving DecidableEq

/-- A parsed semantic version (build metadata is validated on parse and
discarded, as `semver`'s `inc`/comparison do). -/
structure Semver where
  major : Nat
  minor : Nat
  patch : Nat
  pre : List Ident
deriving DecidableEq

/-- Is every character a decimal digit? -/
def allDigits (l : List Char) : Bool :=
  l.all Char.isDigit

/-- A character allowed in a prerelease/build identifier:
ASCII alphanumerics and hyphens. -/
def isIdentChar (c : Char) : Bool :=
  c.isAlpha || c.isDigit || c = '-'

/-- Parses one prerelease identifier: nonempty, alphanumerics and hyphens
only; an all-digit identifier is numeric and must not have a leading zero. -/
def parseIdent (l : List Char) : Option Ident :=
  if l.isEmpty then none
  else if !(l.all isIdentChar) then none
  else if allDigits l then
    match l with
    | '0' :: _ :: _ => none
    | _ => some (.num (digitsToNat l))
  else some (.alnum (String.mk l))

/-- Parses one numeric component of the version core:
nonempty digits, no leading zero (except `0` itself). -/
def parseNumCore (l : List Char) : Option Nat :=
  if l.isEmpty then none
  else if !(allDigits l) then none
  else
    match l with
    | '0' :: _ :: _ => none
    | _ => some (digitsToNat l)

/-- Parses a build-metadata identifier: nonempty, alphanumerics and
hyphens only (leading zeros are allowed here). -/
def validBuildSeg (l : List Char) : Bool :=
  !l.isEmpty && l.all isIdentChar

/-- Parses `MAJOR.MINOR.PATCH[-PRERELEASE]` (the part before any `+`). -/
def parseMain (l : List Char) : Option Semver :=
  let core := breakAtChar '-' l
  match splitOnChar '.' core.1 with
  | [a, b, c] =>
    match parseNumCore a, parseNumCore b, parseNumCore c with
    | some ma, some mi, some pa =>
      match core.2 with
      | none => some ⟨ma, mi, pa, []⟩
      | some p =>
        let ids := (splitOnChar '.' p).map parseIdent
        if ids.all Option.isSome then some ⟨ma, mi, pa, ids.filterMap id⟩
        else none
    | _, _, _ => none
  | _ => none

/-- Parses a full semver string (build metadata validated, then dropped). -/
def parseSemver (s : String) : Option Semver :=
  match splitOnChar '+' s.toList with
  | [m] => parseMain m
  | [m, b] =>
    if (splitOnChar '.' b).all validBuildSeg then parseMain m else none
  | _ => none

/-- Renders one identifier. -/
def renderIdent : Ident → String
  | .num n => Nat.repr n
  | .alnum s => s

/-- Renders a parsed version back to a string (as `semver`'s `inc` does;
build metadata is not part of the result). -/
def renderSemver (v : Semver) : String :=
  Nat.repr v.major ++ "." ++ Nat.repr v.minor ++ "." ++ Nat.repr v.patch ++
    (match v.pre with
     | [] => ""
     | pre => "-" ++ String.intercalate "." (pre.map renderIdent))

/-- Three-way comparison on `Nat`. -/
def cmpNat (a b : Nat) : Ordering :=
  if a < b then .lt else if a = b then .eq else .gt

/-- Three-way comparison on `Char` by code point. -/
def cmpChar (a b : Char) : Ordering :=
  cmpNat a.toNat b.toNat

/-- Lexicographic three-way comparison of character lists. -/
def cmpCharList : List Char → List Char → Ordering
  | [], [] => .eq
  | [], _ :: _ => .lt
  | _ :: _, [] => .gt
  | a :: as, b :: bs =>
    match cmpChar a b with
    | .eq => cmpCharList as bs
    | o => o

/-- Three-way comparison on `String` (lexicographic by character, which
for the ASCII identifiers of this domain coincides with the JavaScript
string order the semver rules appeal to). -/
def cmpStr (a b : String) : Ordering :=
  cmpCharList a.toList b.toList

/-- Semver identifier precedence: numeric identifiers compare numerically
and always sort below alphanumeric identifiers; alphanumeric identifiers
compare in ASCII order. -/
def cmpIdent : Ident → Ident → Ordering
  | .num a, .num b => cmpNat a b
  | .num _, .alnum _ => .lt
  | .alnum _, .num _ => .gt
  | .alnum a, .alnum b => cmpStr a b

/-- Precedence of two nonempty-or-empty prerelease lists as attached to an
equal version core: no prerelease sorts above any prerelease; otherwise
identifiers compare left to right and a strict prefix sorts lower. -/
def cmpRelease : List Ident → List Ident → Ordering
  | [], [] => .eq
  | [], _ :: _ => .gt
  | _ :: _, [] => .lt
  | a :: as, b :: bs =>
    match cmpIdent a b with
    | .eq => cmpRelease as bs
    | o => o

/-- Full semver precedence. -/
def cmpSemver (a b : Semver) : Ordering :=
  match cmpNat a.major b.major with
  | .eq =>
    match cmpNat a.minor b.minor with
    | .eq =>
      match cmpNat a.patch b.patch with
      | .eq => cmpRelease a.pre b.pre
      | o => o
    | o => o
  | o => o

/-- Strict semver order. -/
def ltSemver (a b : Semver) : Prop :=
  cmpSemver a b = .lt

instance (a b : Semver) : Decidable (ltSemver a b) := by
  unfold ltSemver; infer_instance

/-- Compares two version strings under semver precedence
(`none` when either fails to parse). -/
def cmpSemverStr (a b : String) : Option Ordering :=
  match parseSemver a, parseSemver b with
  | some x, some y => some (cmpSemver x y)
  | _, _ => none

/-- The bump type passed to `semver.inc` by the version command. -/
inductive IncType where
  | patch
  | minor
  | major
  | prerelease
deriving DecidableEq

/-- The prerelease bump on a nonempty prerelease list.
Modelled from the spec (§4.1): a prerelease carrying the requested
identifier has its numeric counter incremented; otherwise a new prerelease
component starts at `.0` with the given identifier. -/
def bumpPre (preid : String) : List Ident → List Ident
  | [.alnum p, .num n] =>
    if p = preid then [.alnum preid, .num (n + 1)] else [.alnum preid, .num 0]
  | _ => [.alnum preid, .num 0]

/-- Modelled from the spec: `semver`'s increment rules (§4.1 and the
repository README's `--prerelease` example `1.0.0 -> 1.0.1-rc.0`):
`major`/`minor`/`major` increment their component and reset the lower ones,
except that a version whose lower components are already zero and which
carries a prerelease merely drops the prerelease; `prerelease` on a version
without one bumps patch and starts `<preid>.0`. -/
def incVersion (t : IncType) (preid : String) (v : Semver) : Semver :=
  match t with
  | .major =>
    if v.minor ≠ 0 ∨ v.patch ≠ 0 ∨ v.pre = [] then ⟨v.major + 1, 0, 0, []⟩
    else ⟨v.major, 0, 0, []⟩
  | .minor =>
    if v.patch ≠ 0 ∨ v.pre = [] then ⟨v.major, v.minor + 1, 0, []⟩
    else ⟨v.major, v.minor, 0, []⟩
  | .patch =>
    if v.pre = [] then ⟨v.major, v.minor, v.patch + 1, []⟩
    else ⟨v.major, v.minor, v.patch, []⟩
  | .prerelease =>
    match v.pre with
    | [] => ⟨v.major, v.minor, v.patch + 1, [.alnum preid, .num 0]⟩
    | _ :: _ => ⟨v.major, v.minor, v.patch, bumpPre preid v.pre⟩

/-- Modelled from the spec: `semver.valid` — does the string parse? -/
def semverValid (s : String) : Bool :=
  (parseSemver s).isSome

/-- Modelled from the spec: `semver.inc(s, t, false, preid)` —
`null` (here `none`) when the current version does not parse. -/
def semverInc (s : String) (t : IncType) (preid : String) : Option String :=
  (parseSemver s).map fun v => renderSemver (incVersion t preid v)

/-! ### The release command's new-version computation

Translated from `src/index.ts` (release command action): split the current
version on `-`, keep the first segment as the base; with a prefix, find the
first segment starting with it and require a trailing `r<N>`
(regex `/r(\d+)$/`), else synthesize `<base>-<prefix>-r1`; without a
prefix, find a bare `r<N>` segment (regex `/^r\d+$/`). -/

/-- The trailing `r(\d+)$` match of a segment: the segment must end in one
or more digits immediately preceded by `r`. -/
def rTrailing (s : String) : Option Nat :=
  let rl := s.toList.reverse
  let ds := rl.takeWhile Char.isDigit
  match ds, rl.drop ds.length with
  | [], _ => none
  | _ :: _, 'r' :: _ => some (digitsToNat ds.reverse)
  | _, _ => none

/-- The `^r\d+$` test of the no-prefix branch. -/
def isSimpleRelease (s : String) : Bool :=
  match s.toList with
  | 'r' :: rest => !rest.isEmpty && allDigits rest
  | _ => false

/-- The release command's new-version computation
(`Except.error` is the `Invalid release format` exit). -/
def releaseNewVersion (pfx : Option String) (cv : String) : Except Unit String :=
  let parts := (splitOnChar '-' cv.toList).map String.mk
  let base := parts.headD ""
  match pfx with
  | some p =>
    match parts.find? (fun part => jsStartsWith part p) with
    | some seg =>
      match rTrailing seg with
      | none => .error ()
      | some n => .ok (base ++ "-" ++ p ++ "-r" ++ Nat.repr (n + 1))
    | none => .ok (base ++ "-" ++ p ++ "-r1")
  | none =>
    match parts.find? isSimpleRelease with
    | some seg => .ok (base ++ "-r" ++ Nat.repr (digitsToNat (seg.toList.drop 1) + 1))
    | none => .ok (base ++ "-r1")

/-- JavaScript truthiness of the configured release prefix
(`config.release.prefix` guards the prefixed branch; `undefined` and the
empty string are falsy). -/
def pfxTruthy : Option String → Option String
  | some s => if s = "" then none else some s
  | none => none

/-! ### Manifest handling

Translated from the version command's manifest handling: the raw text is
inspected with the regex `/^(?:( +)|\t+)/m` for the first line starting
with a run of spaces or a run of tabs (the whole run is the detected
indent, defaulting to two spaces), and the file is rewritten as
`JSON.stringify(packageJson, null, indent) + '\n'`.  The parsed manifest is
modelled as an ordered list of string-valued fields (the on-disk
`package.json` objects this tool touches), which is what the version-field
update and the re-serialization act on. -/

/-- The leading indentation run of one line when the line starts with a
space or a tab (the per-line part of the regex `^(?:( +)|\t+)`). -/
def lineIndent (l : List Char) : Option (List Char) :=
  match l with
  | ' ' :: _ => some (l.takeWhile (· = ' '))
  | '\t' :: _ => some (l.takeWhile (· = '\t'))
  | _ => none

/-- The first indentation run found in the file, if any. -/
def firstIndentOf (content : String) : Option (List Char) :=
  ((splitOnChar '\n' content.toList).filterMap lineIndent).head?

/-- The detected indent: the first match of `/^(?:( +)|\t+)/m`,
defaulting to two spaces (`match?.[0] ?? '  '`). -/
def detectIndent (content : String) : String :=
  match firstIndentOf content with
  | some t => String.mk t
  | none => "  "

/-- The opening brace character (code point 123). -/
def braceO : Char := Char.ofNat 123

/-- The closing brace character (code point 125). -/
def braceC : Char := Char.ofNat 125

/-- JSON string escaping for the characters that can occur in the
manifest fields this tool handles. -/
def escC (c : Char) : List Char :=
  if c = '"' then ['\\', '"']
  else if c = '\\' then ['\\', '\\']
  else if c = '\n' then ['\\', 'n']
  else if c = '\t' then ['\\', 't']
  else if c = '\r' then ['\\', 'r']
  else [c]

/-- JSON string quotation. -/
def jsonQuote (s : String) : String :=
  String.mk ('"' :: s.toList.foldr (fun c acc => escC c ++ acc) ['"'])

/-- One serialized member line (without its indent):
`"key": "value"`. -/
def jsonMember (kv : String × String) : String :=
  jsonQuote kv.1 ++ ": " ++ jsonQuote kv.2

/-- Joins serialized member lines with `,` and a newline
(`Array.prototype.join(',\n')` over the member lines). -/
def joinLines : List (List Char) → List Char
  | [] => []
  | [l] => l
  | l :: rest => l ++ ',' :: '\n' :: joinLines rest

/-- `JSON.stringify(obj, null, indent)` for a flat object with string
values: the empty object prints as braces, otherwise each member sits on
its own line prefixed by the gap (a string indent is capped at its first
ten characters, a numeric indent `2` corresponds to the gap of two
spaces). -/
def stringifyPkg (pairs : List (String × String)) (indent : String) : String :=
  match pairs with
  | [] => String.mk [braceO, braceC]
  | _ =>
    String.mk (braceO :: '\n' ::
      (joinLines (pairs.map fun kv =>
        indent.toList.take 10 ++ (jsonMember kv).toList) ++ ['\n', braceC]))

/-- Looks up a field of the parsed manifest. -/
def lookupKey : List (String × String) → String → Option String
  | [], _ => none
  | (k, v) :: rest, key => if k = key then some v else lookupKey rest key

/-- `packageJson.version = newVersion`: updates the field in place,
appending it when absent (JavaScript property assignment preserves the
insertion order of existing keys). -/
def setPkgVersion : List (String × String) → String → List (String × String)
  | [], nv => [("version", nv)]
  | (k, v) :: rest, nv =>
    if k = "version" then (k, nv) :: rest
    else (k, v) :: setPkgVersion rest nv

/-- The bytes the version command writes:
`JSON.stringify({...pkg, version}, null, detectIndent(raw)) + '\n'`. -/
def versionWriteContent (pkg : List (String × String)) (nv : String)
    (raw : String) : String :=
  stringifyPkg (setPkgVersion pkg nv) (detectIndent raw) ++ "\n"

/-- The bytes the release command writes:
`JSON.stringify({...pkg, version}, null, 2) + '\n'` — the indent is the
hardcoded two spaces, not the detected one. -/
def releaseWriteContent (pkg : List (String × String)) (nv : String) : String :=
  stringifyPkg (setPkgVersion pkg nv) "  " ++ "\n"

/-! ### Configuration and options -/

/-- The `commit` section of the effective configuration. -/
structure CommitConfig where
  enabled : Bool
  message : String
deriving DecidableEq

/-- The `tag` section of the effective configuration. -/
structure TagConfig where
  enabled : Bool
  name : String
deriving DecidableEq

/-- The `remote` section of the effective configuration (the version
command reads it through optional chaining, `config.remote?.fetch`, so the
whole section may be absent). -/
structure RemoteConfig where
  fetch : Bool
deriving DecidableEq

/-- The `release` section of the effective configuration; `pfx` models
the `prefix` field (absent or empty is falsy). -/
structure ReleaseConfig where
  pfx : Option String
deriving DecidableEq

/-- The effective configuration after `Config.load` merged defaults,
config file and CLI overrides. -/
structure VerzConfig where
  commit : CommitConfig
  tag : TagConfig
  dryRun : Bool
  remote : Option RemoteConfig
  release : ReleaseConfig
deriving DecidableEq

/-- Truthiness of `config.remote?.fetch`. -/
def remoteEnabled (cfg : VerzConfig) : Bool :=
  match cfg.remote with
  | some r => r.fetch
  | none => false

/-- The parsed options of the `version` subcommand.  `prerelease` mirrors
commander's `boolean | string | undefined` for `--prerelease [preid]`:
`none` = flag absent, `some none` = bare flag, `some (some s)` = flag with
a value. -/
structure VersionOptions where
  patch : Bool
  minor : Bool
  major : Bool
  prerelease : Option (Option String)
  version : Option String
  commitMessage : Option String
  tagName : Option String
  remoteFetch : Bool
  verbose : Bool
  dryRun : Bool
deriving DecidableEq

/-- The parsed options of the `release` subcommand. -/
structure ReleaseOptions where
  pfx : Option String
  commitMessage : Option String
  tagName : Option String
  verbose : Bool
  dryRun : Bool
deriving DecidableEq

/-- The parsed options of the `tag` subcommand. -/
structure TagOptions where
  tagName : Option String
  verbose : Bool
  dryRun : Bool
deriving DecidableEq

/-- JavaScript truthiness of `options.version` (an empty string is falsy,
so it does not count as a selected bump). -/
def versionTruthy (o : VersionOptions) : Bool :=
  match o.version with
  | some s => !(s == "")
  | none => false

/-- The `versionBumpOptions` array of the version command: the names of
the selected bump options, in source order, with unselected entries
filtered out. -/
def selectorList (o : VersionOptions) : List String :=
  List.filterMap id
    [if o.patch then some "patch" else none,
     if o.minor then some "minor" else none,
     if o.major then some "major" else none,
     if o.prerelease.isSome then some "prerelease" else none,
     if versionTruthy o then some "version" else none]

/-- The bump type chosen by the version command's else-if chain (only
consulted when `--version` was not given a truthy value). -/
def selType (o : VersionOptions) : Option IncType :=
  if o.prerelease.isSome then some .prerelease
  else if o.major then some .major
  else if o.minor then some .minor
  else if o.patch then some .patch
  else none

/-- The prerelease identifier the version command passes to `semver.inc`:
the `--prerelease` value when it is a string, else `rc`, with the
`preid || 'rc'` fallback also mapping the empty string to `rc`. -/
def preidEff (o : VersionOptions) : String :=
  match o.prerelease with
  | some (some s) => if s == "" then "rc" else s
  | _ => "rc"

/-- The version command's new-version computation as a pure function of
the options and the manifest's current version: the literal `--version`
value when that selector is truthy and valid, otherwise `semver.inc` on
the current version with the chosen type; `none` on any of the command's
resolution failures. -/
def versionResolve (o : VersionOptions) (pkgVersion : Option String) :
    Option String :=
  if versionTruthy o then
    if semverValid (o.version.getD "") then o.version else none
  else
    match selType o with
    | none => none
    | some t =>
      match pkgVersion with
      | none => none
      | some cv => semverInc cv t (preidEff o)

/-! ### The world: manifest file plus git repository

The git subprocesses the program runs are modelled by an inductive command
type (one constructor per literal invocation in the source) interpreted
against an explicit repository state.  `spawned` counts real subprocess
invocations, so dry-run claims can state that no command was executed. -/

/-- The state of the git repository as observed and mutated by the fixed
set of git invocations the tool issues. -/
structure GitState where
  currentBranch : String
  remoteBranchExists : Bool
  behindCount : Nat
  statusPkg : String
  diffHead : String
  stashCount : Nat
  stashPushes : Nat
  stashPops : Nat
  commits : List String
  tags : List String
  commitFails : Bool
  tagFails : Bool
  spawned : Nat
deriving DecidableEq

/-- The git invocations appearing in the source, one constructor per
literal argument vector. -/
inductive GitCmd where
  | fetch
  | revParseBranch
  | revListBehind (remoteBranch : String)
  | statusPkg
  | diffHead
  | stashPush
  | stashPop
  | addPkg
  | commit (msg : String)
  | tag (name : String)
  | tagAnnotated (name : String) (msg : String)
deriving DecidableEq

/-- Runs one git command against the repository state: `none` models a
nonzero exit status (`rev-list` against a missing remote branch, `commit`
or `tag` when the state says they fail, `stash pop` with nothing stashed),
`some out` a success with captured standard output. -/
def runGitCmd : GitCmd → GitState → Option String × GitState
  | .fetch, g => (some "", g)
  | .revParseBranch, g => (some g.currentBranch, g)
  | .revListBehind _, g =>
    if g.remoteBranchExists then (some (Nat.repr g.behindCount), g) else (none, g)
  | .statusPkg, g => (some g.statusPkg, g)
  | .diffHead, g => (some g.diffHead, g)
  | .stashPush, g =>
    (some "", { g with stashCount := g.stashCount + 1,
                       stashPushes := g.stashPushes + 1 })
  | .stashPop, g =>
    if g.stashCount = 0 then (none, g)
    else
      (some "", { g with stashCount := g.stashCount - 1,
                         stashPops := g.stashPops + 1 })
  | .addPkg, g => (some "", g)
  | .commit m, g =>
    if g.commitFails then (none, g) else (some "", { g with commits := m :: g.commits })
  | .tag n, g =>
    if g.tagFails then (none, g) else (some "", { g with tags := n :: g.tags })
  | .tagAnnotated n _, g =>
    if g.tagFails then (none, g) else (some "", { g with tags := n :: g.tags })

/-- The whole mutable world: the manifest file on disk (raw bytes and its
parse) and the git repository. -/
structure World where
  manifestRaw : String
  manifestPkg : List (String × String)
  git : GitState
deriving DecidableEq

/-- The manifest's `version` field. -/
def pkgVersionOf (w : World) : Option String :=
  lookupKey w.manifestPkg "version"

/-- Translated from `src/lib/exec.ts`: under dry-run every call returns
the empty string before any subprocess is spawned; otherwise the command
runs (counted in `spawned`) and a nonzero exit raises unless
`ignoreReturnCode` was passed.  Result: (thrown?, stdout, world). -/
def exec (cfg : VerzConfig) (c : GitCmd) (ignore : Bool) (w : World) :
    Bool × String × World :=
  if cfg.dryRun then (false, "", w)
  else
    let r := runGitCmd c w.git
    let w' : World := { w with git := { r.2 with spawned := r.2.spawned + 1 } }
    match r.1 with
    | some out => (false, out, w')
    | none => if ignore then (false, "", w') else (true, "", w')

/-! ### Log events

One constructor per logger call site of the three command actions (colour
escape fragments are not modelled; each entry carries the data the call
interpolates). -/

/-- The user-visible log events of the three command actions. -/
inductive LogEntry where
  | dryRunBanner
  | errorNoBumpOption
  | errorMultipleBumpOptions (found : List String)
  | errorInvalidVersion (v : String)
  | infoCurrentVersion (v : Option String)
  | errorNoBumpType
  | errorIncFailed (v : Option String)
  | debugCheckingRemote
  | errorBranchBehind (branch : String)
  | warnRemoteBranchMissing (remoteBranch : String)
  | errorPkgDirty
  | debugUpdatingPkg
  | infoCommitting (msg : String)
  | infoSkipCommit
  | infoCreatingTag (name : String)
  | infoSkipTag
  | successBumped (v : String)
  | errorCommitTagFailed
  | errorGeneric
  | errorInvalidReleaseFormat (v : String)
  | infoBumpedRelease (v : String)
  | successReleased (v : String)
  | errorReleaseCommitTagFailed
  | errorNoVersionInPkg
  | errorTagDisabled
  | infoCreatingTagForCurrent (name : String)
  | successTagCreated (name : String)
deriving DecidableEq

/-- The outcome of one command invocation: final world, process exit code
(0 = success, 1 = any reported failure) and the emitted log events. -/
structure RunResult where
  world : World
  exitCode : Nat
  logs : List LogEntry
deriving DecidableEq

/-- The dry-run banner printed when the parsed options carry `--dry-run`. -/
def bannerLogs (dry : Bool) : List LogEntry :=
  if dry then [.dryRunBanner] else []

/-! ### The `version` command action

Translated from the `version` subcommand's action, split into its
sequential phases: selector validation and new-version resolution, the
optional remote-freshness check, the mandatory manifest-clean check, and
the stash / write / commit / tag / un-stash tail.  `Except.error` carries
the `process.exit(1)` outcome; a normal return of the action is exit
code 0. -/

/-- Accumulated state while an action runs: world plus emitted logs. -/
abbrev RunSt := World × List LogEntry

/-- Phase 1 of the version command: count the bump selectors (zero or more
than one aborts), validate a literal `--version`, read the manifest's
current version and resolve the new version via `semver.inc`. -/
def phResolve (o : VersionOptions) (st : RunSt) :
    Except RunResult (RunSt × String) :=
  if (selectorList o).length = 0 then
    .error ⟨st.1, 1, st.2 ++ [.errorNoBumpOption]⟩
  else if 1 < (selectorList o).length then
    .error ⟨st.1, 1, st.2 ++ [.errorMultipleBumpOptions (selectorList o)]⟩
  else if versionTruthy o then
    if semverValid (o.version.getD "") then
      .ok ((st.1, st.2 ++ [.infoCurrentVersion (pkgVersionOf st.1)]),
           o.version.getD "")
    else .error ⟨st.1, 1, st.2 ++ [.errorInvalidVersion (o.version.getD "")]⟩
  else
    match selType o with
    | none =>
      .error ⟨st.1, 1,
              st.2 ++ [.infoCurrentVersion (pkgVersionOf st.1), .errorNoBumpType]⟩
    | some t =>
      match pkgVersionOf st.1 with
      | none =>
        .error ⟨st.1, 1,
                st.2 ++ [.infoCurrentVersion (pkgVersionOf st.1),
                         .errorIncFailed none]⟩
      | some cv =>
        match semverInc cv t (preidEff o) with
        | none =>
          .error ⟨st.1, 1,
                  st.2 ++ [.infoCurrentVersion (pkgVersionOf st.1),
                           .errorIncFailed (some cv)]⟩
        | some nv =>
          .ok ((st.1, st.2 ++ [.infoCurrentVersion (pkgVersionOf st.1)]), nv)

/-- Phase 2 of the version command: when `config.remote?.fetch` is truthy,
fetch, resolve the current branch, and count the commits the remote is
ahead by; a positive count aborts, a failing `rev-list` (missing remote
branch) degrades to a warning.  Under dry-run every `exec` returns the
empty string, `parseInt('')` is `NaN`, and the check passes vacuously. -/
def phRemote (cfg : VerzConfig) (st : RunSt) : Except RunResult RunSt :=
  if remoteEnabled cfg then
    let logs := st.2 ++ [.debugCheckingRemote]
    let f := exec cfg .fetch false st.1
    if f.1 then .error ⟨f.2.2, 1, logs ++ [.errorGeneric]⟩
    else
      let rp := exec cfg .revParseBranch false f.2.2
      if rp.1 then .error ⟨rp.2.2, 1, logs ++ [.errorGeneric]⟩
      else
        let branch := rp.2.1.trim
        let rb := "origin/" ++ branch
        let rl := exec cfg (.revListBehind rb) false rp.2.2
        if rl.1 then .ok (rl.2.2, logs ++ [.warnRemoteBranchMissing rb])
        else
          match parseIntJs rl.2.1 with
          | some n =>
            if 0 < n then .error ⟨rl.2.2, 1, logs ++ [.errorBranchBehind branch]⟩
            else .ok (rl.2.2, logs)
          | none => .ok (rl.2.2, logs)
  else .ok st

/-- Phase 3 of the version command: the mandatory manifest-clean guard —
`git status --porcelain package.json` with a nonempty output aborts the
run before any mutation. -/
def phStatus (cfg : VerzConfig) (st : RunSt) : Except RunResult RunSt :=
  let s := exec cfg .statusPkg true st.1
  if 0 < s.2.1.length then .error ⟨s.2.2, 1, st.2 ++ [.errorPkgDirty]⟩
  else .ok (s.2.2, st.2)

/-- The version command's `try { add; commit?; tag? } catch` block: any
throw is caught and logged, after which control falls through to the
`finally` stash restoration. -/
def commitTagPhase (cfg : VerzConfig) (nv : String) (w : World)
    (logs : List LogEntry) : List LogEntry × World :=
  let a := exec cfg .addPkg false w
  if a.1 then (logs ++ [.errorCommitTagFailed], a.2.2)
  else
    let c :=
      if cfg.commit.enabled then
        let msg := replaceFirst cfg.commit.message "%v" nv
        let e := exec cfg (.commit msg) false a.2.2
        (logs ++ [.infoCommitting msg], e.1, e.2.2)
      else (logs ++ [.infoSkipCommit], false, a.2.2)
    if c.2.1 then (c.1 ++ [.errorCommitTagFailed], c.2.2)
    else
      let t :=
        if cfg.tag.enabled then
          let name := replaceFirst cfg.tag.name "%v" nv
          let e := exec cfg (.tag name) false c.2.2
          (c.1 ++ [.infoCreatingTag name], e.1, e.2.2)
        else (c.1 ++ [.infoSkipTag], false, c.2.2)
      if t.2.1 then (t.1 ++ [.errorCommitTagFailed], t.2.2)
      else (t.1 ++ [.successBumped nv], t.2.2)

/-- The version command's manifest update: log, detect the indent, and
write the new bytes unless dry-run suppresses the write. -/
def writeStep (cfg : VerzConfig) (nv : String) (w : World) : World :=
  if cfg.dryRun then w
  else { w with
           manifestRaw := versionWriteContent w.manifestPkg nv w.manifestRaw,
           manifestPkg := setPkgVersion w.manifestPkg nv }

/-- The version command's write followed by its commit/tag try-block. -/
def phWriteCommit (cfg : VerzConfig) (nv : String) (w : World)
    (logs : List LogEntry) : List LogEntry × World :=
  commitTagPhase cfg nv (writeStep cfg nv w) (logs ++ [.debugUpdatingPkg])

/-- Phase 4 of the version command: detect uncommitted diffs
(`git diff HEAD`) and, when present, stash them around the
write/commit/tag steps, popping the stash in the `finally` (a throw from
the pop itself propagates to the outer catch and exits 1; otherwise the
action completes with exit code 0 — note the caught commit/tag failure
does not change the exit code). -/
def phFinish (cfg : VerzConfig) (nv : String) (st : RunSt) : RunResult :=
  let d := exec cfg .diffHead true st.1
  if 0 < d.2.1.length then
    let w1 := (exec cfg .stashPush false d.2.2).2.2
    let ct := phWriteCommit cfg nv w1 st.2
    let p := exec cfg .stashPop false ct.2
    if p.1 then ⟨p.2.2, 1, ct.1 ++ [.errorGeneric]⟩
    else ⟨p.2.2, 0, ct.1⟩
  else
    let ct := phWriteCommit cfg nv d.2.2 st.2
    ⟨ct.2, 0, ct.1⟩

/-- Either the aborted result (`process.exit(1)`) or the continuation on
the surviving state — the sequencing glue of the action's phases. -/
def orExit (x : Except RunResult RunSt) (k : RunSt → RunResult) : RunResult :=
  match x with
  | .error r => r
  | .ok st => k st

/-- Sequencing glue for the resolution phase, which also produces the new
version string. -/
def orExitR (x : Except RunResult (RunSt × String))
    (k : RunSt → String → RunResult) : RunResult :=
  match x with
  | .error r => r
  | .ok (st, nv) => k st nv

/-- The `version` subcommand action. -/
def versionAction (o : VersionOptions) (cfg : VerzConfig) (w : World) :
    RunResult :=
  orExitR (phResolve o (w, bannerLogs o.dryRun)) fun st1 nv =>
    orExit (phRemote cfg st1) fun st2 =>
      orExit (phStatus cfg st2) fun st3 =>
        phFinish cfg nv st3

/-! ### The `release` command action

Translated from the `release` subcommand's action: it reads the current
version, computes the suffixed release version, writes the manifest with a
hardcoded two-space indent (no manifest-clean check, no stash), then adds,
optionally commits, optionally creates an annotated tag; a commit/tag
failure here exits 1. -/

/-- The `release` subcommand action. -/
def releaseAction (o : ReleaseOptions) (cfg : VerzConfig) (w : World) :
    RunResult :=
  let logs := bannerLogs o.dryRun ++ [.infoCurrentVersion (pkgVersionOf w)]
  match pkgVersionOf w with
  | none => ⟨w, 1, logs ++ [.errorGeneric]⟩
  | some cv =>
    match releaseNewVersion (pfxTruthy cfg.release.pfx) cv with
    | .error _ => ⟨w, 1, logs ++ [.errorInvalidReleaseFormat cv]⟩
    | .ok nv =>
      let w1 :=
        if cfg.dryRun then w
        else { w with
                 manifestRaw := releaseWriteContent w.manifestPkg nv,
                 manifestPkg := setPkgVersion w.manifestPkg nv }
      let logs := logs ++ [.infoBumpedRelease nv]
      let a := exec cfg .addPkg false w1
      if a.1 then ⟨a.2.2, 1, logs ++ [.errorReleaseCommitTagFailed]⟩
      else
        let c :=
          if cfg.commit.enabled then
            let msg := replaceFirst cfg.commit.message "%v" nv
            let e := exec cfg (.commit msg) false a.2.2
            (logs ++ [.infoCommitting msg], e.1, e.2.2)
          else (logs, false, a.2.2)
        if c.2.1 then ⟨c.2.2, 1, c.1 ++ [.errorReleaseCommitTagFailed]⟩
        else
          let t :=
            if cfg.tag.enabled then
              let name := replaceFirst cfg.tag.name "%v" nv
              let e := exec cfg (.tagAnnotated name ("Release " ++ nv)) false c.2.2
              (c.1 ++ [.infoCreatingTag name], e.1, e.2.2)
            else (c.1, false, c.2.2)
          if t.2.1 then ⟨t.2.2, 1, t.1 ++ [.errorReleaseCommitTagFailed]⟩
          else ⟨t.2.2, 0, t.1 ++ [.successReleased nv]⟩

/-! ### The `tag` command action

Translated from the `tag` subcommand's action: reads the current version
(a falsy one aborts), requires `tag.enabled`, and creates a tag named by
the template with `%v` replaced; the tag `exec` is additionally guarded by
the dry-run flag in the source. -/

/-- The `tag` subcommand action. -/
def tagAction (o : TagOptions) (cfg : VerzConfig) (w : World) : RunResult :=
  let logs := bannerLogs o.dryRun
  match pkgVersionOf w with
  | none => ⟨w, 1, logs ++ [.errorNoVersionInPkg]⟩
  | some cv =>
    if cv = "" then ⟨w, 1, logs ++ [.errorNoVersionInPkg]⟩
    else
      let logs := logs ++ [.infoCurrentVersion (some cv)]
      if cfg.tag.enabled then
        let name := replaceFirst cfg.tag.name "%v" cv
        let logs := logs ++ [.infoCreatingTagForCurrent name]
        if cfg.dryRun then ⟨w, 0, logs ++ [.successTagCreated name]⟩
        else
          let e := exec cfg (.tag name) false w
          if e.1 then ⟨e.2.2, 1, logs ++ [.errorGeneric]⟩
          else ⟨e.2.2, 0, logs ++ [.successTagCreated name]⟩
      else ⟨w, 1, logs ++ [.errorTagDisabled]⟩

/-! ### Basic lemmas -/

/-- A nonempty string has positive length. -/
theorem strLen_pos (s : String) (h : s ≠ "") : 0 < s.length := by
  cases s with
  | mk data =>
    cases data with
    | nil => exact absurd rfl h
    | cons a l => simp [String.length]

/-- Under dry-run, `exec` returns the empty string and leaves the world
untouched before any subprocess is spawned. -/
theorem exec_dry (cfg : VerzConfig) (c : GitCmd) (i : Bool) (w : World)
    (h : cfg.dryRun = true) : exec cfg c i w = (false, "", w) := by
  simp [exec, h]

/-! ### Phase lemmas for the version command -/

/-- The resolution phase either aborts with exit code 1 leaving the world
exactly as it was, or succeeds leaving the world untouched and logging
only the current version. -/
theorem phResolve_spec (o : VersionOptions) (st : RunSt) :
    (∀ r, phResolve o st = .error r → r.exitCode = 1 ∧ r.world = st.1) ∧
    (∀ st' nv, phResolve o st = .ok (st', nv) →
      st'.1 = st.1 ∧
      st'.2 = st.2 ++ [.infoCurrentVersion (pkgVersionOf st.1)]) := by
  unfold phResolve
  repeat' (beta_reduce; split)
  all_goals
    refine ⟨fun r h => ?_, fun st' nv h => ?_⟩ <;>
      first
        | (cases h; exact ⟨rfl, rfl⟩)
        | cases h

/-- With exactly one selector and a successful pure resolution, the
resolution phase succeeds with exactly that new version. -/
theorem phResolve_ok_of (o : VersionOptions) (w : World) (logs : List LogEntry)
    (nv : String) (hsel : (selectorList o).length = 1)
    (hres : versionResolve o (pkgVersionOf w) = some nv) :
    phResolve o (w, logs) =
      .ok ((w, logs ++ [.infoCurrentVersion (pkgVersionOf w)]), nv) := by
  have h0 : ¬ (selectorList o).length = 0 := by omega
  have h1 : ¬ 1 < (selectorList o).length := by omega
  by_cases hvt : versionTruthy o
  · rcases hov : o.version with _ | s
    · rw [versionTruthy, hov] at hvt
      simp at hvt
    · by_cases hval : semverValid s
      · have hnv : nv = s := by
          rw [versionResolve, if_pos hvt, hov] at hres
          simp only [Option.getD_some, hval, if_true] at hres
          exact (Option.some.injEq s nv ▸ hres :).symm
        subst hnv
        simp [phResolve, h0, h1, hvt, hov, hval]
      · rw [versionResolve, if_pos hvt, hov] at hres
        simp only [Option.getD_some, hval] at hres
        simp at hres
  · rw [versionResolve, if_neg hvt] at hres
    rcases ht : selType o with _ | t
    · rw [ht] at hres; simp at hres
    · rw [ht] at hres
      rcases hp : pkgVersionOf w with _ | cv
      · rw [hp] at hres; simp at hres
      · rw [hp] at hres
        simp only [] at hres
        rcases hi : semverInc cv t (preidEff o) with _ | nv'
        · rw [hi] at hres; simp at hres
        · rw [hi] at hres
          have hnv : nv' = nv := by simpa using hres
          subst hnv
          simp [phResolve, h0, h1, hvt, ht, hp, hi]

/-- An abort of the remote-check phase has exit code 1 and leaves the
manifest and the stash bookkeeping untouched. -/
theorem phRemote_err (cfg : VerzConfig) (w : World) (logs : List LogEntry)
    (r : RunResult) (h : phRemote cfg (w, logs) = .error r) :
    r.exitCode = 1 ∧ r.world.manifestRaw = w.manifestRaw ∧
    r.world.manifestPkg = w.manifestPkg ∧
    r.world.git.stashCount = w.git.stashCount ∧
    r.world.git.stashPushes = w.git.stashPushes ∧
    r.world.git.stashPops = w.git.stashPops ∧
    r.world.git.commits = w.git.commits ∧
    r.world.git.tags = w.git.tags := by
  by_cases hre : remoteEnabled cfg
  · by_cases hd : cfg.dryRun
    · simp [phRemote, exec, hre, hd, parseIntJs] at h
    · cases hex : w.git.remoteBranchExists
      · simp [phRemote, exec, runGitCmd, hre, hd, hex] at h
      · simp only [phRemote, exec, runGitCmd, hre, hd, hex, if_true, if_false,
          Bool.false_eq_true, ite_false, ite_true] at h
        rcases hp : parseIntJs (Nat.repr w.git.behindCount) with _ | n
        · rw [hp] at h; simp at h
        · rw [hp] at h
          simp only [] at h
          by_cases hn : 0 < n
          · rw [if_pos hn] at h
            cases h
            exact ⟨rfl, rfl, rfl, rfl, rfl, rfl, rfl, rfl⟩
          · rw [if_neg hn] at h
            simp at h
  · simp [phRemote, hre] at h

/-- A successful remote-check phase preserves the manifest, the observed
repository inputs and the stash/commit/tag bookkeeping, and only adds the
remote-check debug/warn log entries. -/
theorem phRemote_ok (cfg : VerzConfig) (w : World) (logs : List LogEntry)
    (st' : RunSt) (h : phRemote cfg (w, logs) = .ok st') :
    st'.1.manifestRaw = w.manifestRaw ∧
    st'.1.manifestPkg = w.manifestPkg ∧
    st'.1.git.statusPkg = w.git.statusPkg ∧
    st'.1.git.diffHead = w.git.diffHead ∧
    st'.1.git.commitFails = w.git.commitFails ∧
    st'.1.git.tagFails = w.git.tagFails ∧
    st'.1.git.stashCount = w.git.stashCount ∧
    st'.1.git.stashPushes = w.git.stashPushes ∧
    st'.1.git.stashPops = w.git.stashPops ∧
    st'.1.git.commits = w.git.commits ∧
    st'.1.git.tags = w.git.tags ∧
    (∃ dl, st'.2 = logs ++ dl ∧
      ∀ e ∈ dl, e = LogEntry.debugCheckingRemote ∨
        ∃ b, e = LogEntry.warnRemoteBranchMissing b) := by
  by_cases hre : remoteEnabled cfg
  · by_cases hd : cfg.dryRun
    · simp [phRemote, exec, hre, hd, parseIntJs] at h
      cases h
      refine ⟨rfl, rfl, rfl, rfl, rfl, rfl, rfl, rfl, rfl, rfl, rfl,
        [.debugCheckingRemote], by simp, by simp⟩
    · cases hex : w.git.remoteBranchExists
      · simp only [phRemote, exec, runGitCmd, hre, hd, hex, if_true, if_false,
          Bool.false_eq_true, ite_false, ite_true] at h
        cases h
        refine ⟨rfl, rfl, rfl, rfl, rfl, rfl, rfl, rfl, rfl, rfl, rfl,
          [.debugCheckingRemote,
           .warnRemoteBranchMissing ("origin/" ++ w.git.currentBranch.trim)],
          by simp, ?_⟩
        intro e he
        simp at he
        rcases he with he | he
        · exact Or.inl he
        · exact Or.inr ⟨_, he⟩
      · simp only [phRemote, exec, runGitCmd, hre, hd, hex, if_true, if_false,
          Bool.false_eq_true, ite_false, ite_true] at h
        rcases hp : parseIntJs (Nat.repr w.git.behindCount) with _ | n
        · rw [hp] at h
          simp only [] at h
          cases h
          refine ⟨rfl, rfl, rfl, rfl, rfl, rfl, rfl, rfl, rfl, rfl, rfl,
            [.debugCheckingRemote], by simp, by simp⟩
        · rw [hp] at h
          simp only [] at h
          by_cases hn : 0 < n
          · rw [if_pos hn] at h; simp at h
          · rw [if_neg hn] at h
            cases h
            refine ⟨rfl, rfl, rfl, rfl, rfl, rfl, rfl, rfl, rfl, rfl, rfl,
              [.debugCheckingRemote], by simp, by simp⟩
  · simp only [phRemote, hre, Bool.false_eq_true, ite_false] at h
    cases h
    exact ⟨rfl, rfl, rfl, rfl, rfl, rfl, rfl, rfl, rfl, rfl, rfl,
      [], by simp, by simp⟩

/-- When the local branch is not behind its remote, the remote-check phase
never aborts. -/
theorem phRemote_noerr (cfg : VerzConfig) (w : World) (logs : List LogEntry)
    (hb : w.git.behindCount = 0) (r : RunResult) :
    phRemote cfg (w, logs) ≠ .error r := by
  intro h
  have hp0 : parseIntJs (Nat.repr 0) = some 0 := rfl
  by_cases hre : remoteEnabled cfg
  · by_cases hd : cfg.dryRun
    · simp [phRemote, exec, hre, hd, parseIntJs] at h
    · cases hex : w.git.remoteBranchExists
      · simp [phRemote, exec, runGitCmd, hre, hd, hex] at h
      · simp [phRemote, exec, runGitCmd, hre, hd, hex, hb, hp0] at h
  · simp [phRemote, hre] at h

/-- An abort of the manifest-clean phase has exit code 1 and leaves the
manifest and the stash bookkeeping untouched. -/
theorem phStatus_err (cfg : VerzConfig) (w : World) (logs : List LogEntry)
    (r : RunResult) (h : phStatus cfg (w, logs) = .error r) :
    r.exitCode = 1 ∧ r.world.manifestRaw = w.manifestRaw ∧
    r.world.manifestPkg = w.manifestPkg ∧
    r.world.git.stashCount = w.git.stashCount ∧
    r.world.git.stashPushes = w.git.stashPushes ∧
    r.world.git.stashPops = w.git.stashPops ∧
    r.world.git.commits = w.git.commits ∧
    r.world.git.tags = w.git.tags := by
  by_cases hd : cfg.dryRun
  · simp [phStatus, exec, hd] at h
  · simp only [phStatus, exec, runGitCmd, hd, Bool.false_eq_true, ite_false] at h
    by_cases hl : 0 < w.git.statusPkg.length
    · rw [if_pos hl] at h
      cases h
      exact ⟨rfl, rfl, rfl, rfl, rfl, rfl, rfl, rfl⟩
    · rw [if_neg hl] at h
      simp at h

/-- A successful manifest-clean phase preserves the manifest, the observed
repository inputs, the stash/commit/tag bookkeeping and the log. -/
theorem phStatus_ok (cfg : VerzConfig) (w : World) (logs : List LogEntry)
    (st' : RunSt) (h : phStatus cfg (w, logs) = .ok st') :
    st'.1.manifestRaw = w.manifestRaw ∧
    st'.1.manifestPkg = w.manifestPkg ∧
    st'.1.git.diffHead = w.git.diffHead ∧
    st'.1.git.commitFails = w.git.commitFails ∧
    st'.1.git.tagFails = w.git.tagFails ∧
    st'.1.git.stashCount = w.git.stashCount ∧
    st'.1.git.stashPushes = w.git.stashPushes ∧
    st'.1.git.stashPops = w.git.stashPops ∧
    st'.1.git.commits = w.git.commits ∧
    st'.1.git.tags = w.git.tags ∧
    st'.2 = logs := by
  by_cases hd : cfg.dryRun
  · simp [phStatus, exec, hd] at h
    cases h
    exact ⟨rfl, rfl, rfl, rfl, rfl, rfl, rfl, rfl, rfl, rfl, rfl⟩
  · simp only [phStatus, exec, runGitCmd, hd, Bool.false_eq_true, ite_false] at h
    by_cases hl : 0 < w.git.statusPkg.length
    · rw [if_pos hl] at h; simp at h
    · rw [if_neg hl] at h
      cases h
      exact ⟨rfl, rfl, rfl, rfl, rfl, rfl, rfl, rfl, rfl, rfl, rfl⟩

/-- With a clean manifest (or under dry-run) the manifest-clean phase
never aborts. -/
theorem phStatus_noerr (cfg : VerzConfig) (w : World) (logs : List LogEntry)
    (hc : w.git.statusPkg = "" ∨ cfg.dryRun = true) (r : RunResult) :
    phStatus cfg (w, logs) ≠ .error r := by
  intro h
  by_cases hd : cfg.dryRun
  · simp [phStatus, exec, hd] at h
  · rcases hc with hc | hc
    · simp [phStatus, exec, runGitCmd, hd, hc] at h
    · exact absurd hc (by simp [hd])

/-- In a real run with a dirty manifest the manifest-clean phase aborts
with exit code 1, the manifest untouched, and the dirty-manifest error
logged. -/
theorem phStatus_dirty (cfg : VerzConfig) (w : World) (logs : List LogEntry)
    (hd : cfg.dryRun = false) (hdirty : w.git.statusPkg ≠ "") :
    phStatus cfg (w, logs) =
      .error ⟨{ w with git := { w.git with spawned := w.git.spawned + 1 } }, 1,
              logs ++ [.errorPkgDirty]⟩ := by
  have hl : 0 < w.git.statusPkg.length := strLen_pos _ hdirty
  simp [phStatus, exec, runGitCmd, hd, hl]

/-! ### Lemmas about the commit/tag try-block and the finish phase -/

/-- The commit/tag log entries of a try-block run in which no git command
throws (in particular every dry-run). -/
def ctLogsOk (cfg : VerzConfig) (nv : String) : List LogEntry :=
  (if cfg.commit.enabled then
     [.infoCommitting (replaceFirst cfg.commit.message "%v" nv)]
   else [.infoSkipCommit]) ++
  (if cfg.tag.enabled then
     [.infoCreatingTag (replaceFirst cfg.tag.name "%v" nv)]
   else [.infoSkipTag]) ++
  [.successBumped nv]

/-- The commit/tag try-block never touches the manifest or the stash
bookkeeping (every throw inside it is caught). -/
theorem ctp_frame (cfg : VerzConfig) (nv : String) (w : World)
    (logs : List LogEntry) :
    (commitTagPhase cfg nv w logs).2.manifestRaw = w.manifestRaw ∧
    (commitTagPhase cfg nv w logs).2.manifestPkg = w.manifestPkg ∧
    (commitTagPhase cfg nv w logs).2.git.stashCount = w.git.stashCount ∧
    (commitTagPhase cfg nv w logs).2.git.stashPushes = w.git.stashPushes ∧
    (commitTagPhase cfg nv w logs).2.git.stashPops = w.git.stashPops := by
  unfold commitTagPhase
  by_cases hd : cfg.dryRun <;>
    by_cases hc : cfg.commit.enabled <;>
      by_cases ht : cfg.tag.enabled <;>
        cases hcf : w.git.commitFails <;>
          cases htf : w.git.tagFails <;>
            simp [exec, runGitCmd, hd, hc, ht, hcf, htf]

/-- Under dry-run the try-block throws nothing and only logs. -/
theorem ctp_dry (cfg : VerzConfig) (nv : String) (w : World)
    (logs : List LogEntry) (hd : cfg.dryRun = true) :
    commitTagPhase cfg nv w logs = (logs ++ ctLogsOk cfg nv, w) := by
  unfold commitTagPhase ctLogsOk
  by_cases hc : cfg.commit.enabled <;> by_cases ht : cfg.tag.enabled <;>
    simp [exec, hd, hc, ht]

/-- In a real run with commits enabled and a failing `git commit`, the
try-block logs the commit attempt and the caught failure, and stops
before tagging. -/
theorem ctp_commitFail (cfg : VerzConfig) (nv : String) (w : World)
    (logs : List LogEntry) (hd : cfg.dryRun = false)
    (hc : cfg.commit.enabled = true) (hcf : w.git.commitFails = true) :
    (commitTagPhase cfg nv w logs).1 =
      logs ++ [.infoCommitting (replaceFirst cfg.commit.message "%v" nv),
               .errorCommitTagFailed] := by
  unfold commitTagPhase
  simp [exec, runGitCmd, hd, hc, hcf]

/-- The try-block can only add its own commit/tag log entries: an entry
absent from the incoming log and distinct from all of them stays absent. -/
theorem ctp_guard_free (cfg : VerzConfig) (nv : String) (w : World)
    (logs : List LogEntry) (e : LogEntry) (hmem : e ∉ logs)
    (he : e = .errorPkgDirty ∨ ∃ b, e = .errorBranchBehind b) :
    e ∉ (commitTagPhase cfg nv w logs).1 := by
  unfold commitTagPhase
  rcases he with rfl | ⟨b, rfl⟩ <;>
    by_cases hd : cfg.dryRun <;>
      by_cases hc : cfg.commit.enabled <;>
        by_cases ht : cfg.tag.enabled <;>
          cases hcf : w.git.commitFails <;>
            cases htf : w.git.tagFails <;>
              simp_all [exec, runGitCmd]

/-- The write step never touches the repository. -/
theorem writeStep_git (cfg : VerzConfig) (nv : String) (w : World) :
    (writeStep cfg nv w).git = w.git := by
  unfold writeStep
  split <;> rfl

/-- Under dry-run the write step is a no-op. -/
theorem writeStep_dry (cfg : VerzConfig) (nv : String) (w : World)
    (hd : cfg.dryRun = true) : writeStep cfg nv w = w := by
  simp [writeStep, hd]

/-- In a real run the write step writes exactly the re-serialized manifest
with the detected indent and a trailing newline. -/
theorem writeStep_real (cfg : VerzConfig) (nv : String) (w : World)
    (hd : cfg.dryRun = false) :
    (writeStep cfg nv w).manifestRaw =
      versionWriteContent w.manifestPkg nv w.manifestRaw := by
  simp [writeStep, hd]

/-- The write/commit step preserves the stash count. -/
theorem pwc_stashCount (cfg : VerzConfig) (nv : String) (w : World)
    (logs : List LogEntry) :
    (phWriteCommit cfg nv w logs).2.git.stashCount = w.git.stashCount := by
  unfold phWriteCommit
  rw [(ctp_frame cfg nv (writeStep cfg nv w) (logs ++ [LogEntry.debugUpdatingPkg])).2.2.1,
      writeStep_git]

/-- The write/commit step preserves the stash-push counter. -/
theorem pwc_pushes (cfg : VerzConfig) (nv : String) (w : World)
    (logs : List LogEntry) :
    (phWriteCommit cfg nv w logs).2.git.stashPushes = w.git.stashPushes := by
  unfold phWriteCommit
  rw [(ctp_frame cfg nv (writeStep cfg nv w) (logs ++ [LogEntry.debugUpdatingPkg])).2.2.2.1,
      writeStep_git]

/-- The write/commit step preserves the stash-pop counter. -/
theorem pwc_pops (cfg : VerzConfig) (nv : String) (w : World)
    (logs : List LogEntry) :
    (phWriteCommit cfg nv w logs).2.git.stashPops = w.git.stashPops := by
  unfold phWriteCommit
  rw [(ctp_frame cfg nv (writeStep cfg nv w) (logs ++ [LogEntry.debugUpdatingPkg])).2.2.2.2,
      writeStep_git]

/-- In a real run the write/commit step leaves on disk exactly the
re-serialized manifest. -/
theorem pwc_raw_real (cfg : VerzConfig) (nv : String) (w : World)
    (logs : List LogEntry) (hd : cfg.dryRun = false) :
    (phWriteCommit cfg nv w logs).2.manifestRaw =
      versionWriteContent w.manifestPkg nv w.manifestRaw := by
  unfold phWriteCommit
  rw [(ctp_frame cfg nv (writeStep cfg nv w) (logs ++ [LogEntry.debugUpdatingPkg])).1,
      writeStep_real cfg nv w hd]

/-- Under dry-run the write/commit step changes nothing in the world. -/
theorem pwc_dry (cfg : VerzConfig) (nv : String) (w : World)
    (logs : List LogEntry) (hd : cfg.dryRun = true) :
    phWriteCommit cfg nv w logs =
      (logs ++ [.debugUpdatingPkg] ++ ctLogsOk cfg nv, w) := by
  unfold phWriteCommit
  rw [writeStep_dry cfg nv w hd, ctp_dry cfg nv w _ hd]

/-- In a real run with commits enabled and a failing `git commit`, the
write/commit step's log records the caught failure. -/
theorem pwc_commitFail (cfg : VerzConfig) (nv : String) (w : World)
    (logs : List LogEntry) (hd : cfg.dryRun = false)
    (hc : cfg.commit.enabled = true) (hcf : w.git.commitFails = true) :
    (phWriteCommit cfg nv w logs).1 =
      logs ++ [.debugUpdatingPkg,
               .infoCommitting (replaceFirst cfg.commit.message "%v" nv),
               .errorCommitTagFailed] := by
  unfold phWriteCommit
  have hcf' : (writeStep cfg nv w).git.commitFails = true := by
    rw [writeStep_git]; exact hcf
  rw [ctp_commitFail cfg nv _ _ hd hc hcf']
  simp

/-- The write/commit step only adds its own log entries. -/
theorem pwc_guard_free (cfg : VerzConfig) (nv : String) (w : World)
    (logs : List LogEntry) (e : LogEntry) (hmem : e ∉ logs)
    (he : e = .errorPkgDirty ∨ ∃ b, e = .errorBranchBehind b) :
    e ∉ (phWriteCommit cfg nv w logs).1 := by
  unfold phWriteCommit
  refine ctp_guard_free cfg nv _ _ e ?_ he
  intro hx
  rcases List.mem_append.mp hx with hx | hx
  · exact hmem hx
  · rcases he with rfl | ⟨b, rfl⟩ <;> simp at hx

/-- The finish phase always completes with exit code 0 (a pushed stash can
always be popped, and a caught commit/tag failure does not change the exit
code), restores the stash count, pops exactly as often as it pushed, and
in a real run leaves on disk exactly the re-serialized manifest. -/
theorem phFinish_spec (cfg : VerzConfig) (nv : String) (w : World)
    (logs : List LogEntry) :
    (phFinish cfg nv (w, logs)).exitCode = 0 ∧
    (phFinish cfg nv (w, logs)).world.git.stashCount = w.git.stashCount ∧
    (∃ d, d ≤ 1 ∧
      (phFinish cfg nv (w, logs)).world.git.stashPushes = w.git.stashPushes + d ∧
      (phFinish cfg nv (w, logs)).world.git.stashPops = w.git.stashPops + d) ∧
    (cfg.dryRun = false →
      (phFinish cfg nv (w, logs)).world.manifestRaw =
        versionWriteContent w.manifestPkg nv w.manifestRaw) := by
  unfold phFinish
  by_cases hd : cfg.dryRun
  · rw [exec_dry _ _ _ _ hd]
    simp only [String.length, Nat.lt_irrefl, if_false]
    rw [pwc_dry cfg nv w logs hd]
    refine ⟨by first | rfl | trivial, by first | rfl | trivial,
      ⟨0, by omega, by simp, by simp⟩, fun h => by rw [hd] at h; cases h⟩
  · replace hd : cfg.dryRun = false := by simpa using hd
    simp only [exec, runGitCmd, hd, Bool.false_eq_true, if_false]
    by_cases hch : 0 < w.git.diffHead.length
    · rw [if_pos hch]
      simp only [pwc_stashCount, pwc_pushes, pwc_pops, pwc_raw_real _ _ _ _ hd]
      simp only [Nat.succ_ne_zero, if_false, Nat.add_sub_cancel]
      refine ⟨by first | rfl | trivial, by simp, ⟨1, by omega, by simp, by simp⟩,
        fun _ => by simp⟩
    · rw [if_neg hch]
      simp only [pwc_stashCount, pwc_pushes, pwc_pops, pwc_raw_real _ _ _ _ hd]
      refine ⟨by first | rfl | trivial, by simp, ⟨0, by omega, by simp, by simp⟩,
        fun _ => by simp⟩

/-- Under dry-run the whole finish phase leaves the world untouched,
completes with exit code 0, and still logs the update and the success
message with the would-be version. -/
theorem phFinish_dry (cfg : VerzConfig) (nv : String) (w : World)
    (logs : List LogEntry) (hd : cfg.dryRun = true) :
    phFinish cfg nv (w, logs) =
      ⟨w, 0, logs ++ [.debugUpdatingPkg] ++ ctLogsOk cfg nv⟩ := by
  unfold phFinish
  rw [exec_dry _ _ _ _ hd]
  simp only [String.length, List.length_nil, Nat.lt_irrefl, if_false]
  rw [pwc_dry cfg nv w logs hd]

/-- The finish phase only adds its own log entries: the guard errors of
the earlier phases cannot appear in it. -/
theorem phFinish_guard_free (cfg : VerzConfig) (nv : String) (w : World)
    (logs : List LogEntry) (e : LogEntry) (hmem : e ∉ logs)
    (he : e = .errorPkgDirty ∨ ∃ b, e = .errorBranchBehind b) :
    e ∉ (phFinish cfg nv (w, logs)).logs := by
  simp only [phFinish]
  split
  · split
    · intro hx
      rcases List.mem_append.mp hx with hx | hx
      · exact pwc_guard_free cfg nv _ logs e hmem he hx
      · rcases he with rfl | ⟨b, rfl⟩ <;> simp at hx
    · exact pwc_guard_free cfg nv _ logs e hmem he
  · exact pwc_guard_free cfg nv _ logs e hmem he

/-- In a real run with commits enabled and a failing `git commit`, the
finish phase logs the caught failure (and, by `phFinish_spec`, still
completes with exit code 0 after restoring the stash). -/
theorem phFinish_commitFail (cfg : VerzConfig) (nv : String) (w : World)
    (logs : List LogEntry) (hd : cfg.dryRun = false)
    (hc : cfg.commit.enabled = true) (hcf : w.git.commitFails = true) :
    (phFinish cfg nv (w, logs)).logs =
      logs ++ [.debugUpdatingPkg,
               .infoCommitting (replaceFirst cfg.commit.message "%v" nv),
               .errorCommitTagFailed] := by
  unfold phFinish
  simp only [exec, runGitCmd, hd, Bool.false_eq_true, if_false]
  by_cases hch : 0 < w.git.diffHead.length
  · rw [if_pos hch]
    simp only [pwc_stashCount]
    simp only [Nat.succ_ne_zero, if_false, Bool.false_eq_true]
    rw [pwc_commitFail cfg nv _ logs hd hc (by exact hcf)]
  · rw [if_neg hch]
    rw [pwc_commitFail cfg nv _ logs hd hc (by exact hcf)]

/-- Under dry-run the remote check runs no subprocess, observes empty
output everywhere (`parseInt('')` is `NaN`), and therefore passes,
logging only its debug line. -/
theorem phRemote_dry (cfg : VerzConfig) (w : World) (logs : List LogEntry)
    (hd : cfg.dryRun = true) :
    phRemote cfg (w, logs) =
      .ok (w, logs ++ (if remoteEnabled cfg then [.debugCheckingRemote]
                       else [])) := by
  by_cases hre : remoteEnabled cfg
  · simp [phRemote, exec, hre, hd, parseIntJs]
  · simp [phRemote, hre]

/-- Under dry-run the manifest-clean check observes empty status output
and passes without running a subprocess. -/
theorem phStatus_dry (cfg : VerzConfig) (w : World) (logs : List LogEntry)
    (hd : cfg.dryRun = true) :
    phStatus cfg (w, logs) = .ok (w, logs) := by
  simp [phStatus, exec, hd]

/-- The resolution phase can only add its own log entries; in particular
the guard errors of the later phases never appear in it. -/
theorem phResolve_guard_free (o : VersionOptions) (st : RunSt) (e : LogEntry)
    (hmem : e ∉ st.2)
    (he : e = .errorPkgDirty ∨ ∃ b, e = .errorBranchBehind b) :
    (∀ r, phResolve o st = .error r → e ∉ r.logs) ∧
    (∀ st' nv, phResolve o st = .ok (st', nv) → e ∉ st'.2) := by
  unfold phResolve
  repeat' (beta_reduce; split)
  all_goals
    refine ⟨fun r h => ?_, fun st' nv h => ?_⟩ <;>
      (cases h
       all_goals
         intro hx
         rcases List.mem_append.mp hx with hx | hx
         · exact hmem hx
         · rcases he with rfl | ⟨b, rfl⟩ <;> simp at hx)

/-! ### Composed lemmas about the whole version action -/

/-- Under dry-run the version action never changes the world, whatever
its options and whatever the repository looks like. -/
theorem orExit_error (r : RunResult) (k : RunSt → RunResult) :
    orExit (.error r) k = r := rfl

theorem orExit_ok (st : RunSt) (k : RunSt → RunResult) :
    orExit (.ok st) k = k st := rfl

theorem orExitR_error (r : RunResult) (k : RunSt → String → RunResult) :
    orExitR (.error r) k = r := rfl

theorem orExitR_ok (st : RunSt) (nv : String)
    (k : RunSt → String → RunResult) : orExitR (.ok (st, nv)) k = k st nv := rfl

/-- Under dry-run the version action never changes the world, whatever
its options and whatever the repository looks like. -/
theorem versionAction_dry_world (o : VersionOptions) (cfg : VerzConfig)
    (w : World) (hd : cfg.dryRun = true) :
    (versionAction o cfg w).world = w := by
  unfold versionAction
  rcases hr : phResolve o (w, bannerLogs o.dryRun) with r | ⟨st1, nv⟩
  · rw [orExitR_error]
    exact ((phResolve_spec o _).1 r hr).2
  · obtain ⟨h1, h2⟩ := (phResolve_spec o _).2 st1 nv hr
    rcases st1 with ⟨w1, logs1⟩
    simp only [] at h1
    subst h1
    rw [orExitR_ok]
    rw [phRemote_dry cfg w1 logs1 hd, orExit_ok]
    rw [phStatus_dry cfg w1 _ hd, orExit_ok]
    rw [phFinish_dry cfg nv w1 _ hd]

/-- A dry run whose resolution succeeds (exactly one selector, resolvable
version) completes with exit code 0, changes nothing, and logs the
success message carrying the version a real run would have produced. -/
theorem versionAction_dry_success (o : VersionOptions) (cfg : VerzConfig)
    (w : World) (nv : String) (hd : cfg.dryRun = true)
    (hsel : (selectorList o).length = 1)
    (hres : versionResolve o (pkgVersionOf w) = some nv) :
    versionAction o cfg w =
      ⟨w, 0,
       bannerLogs o.dryRun ++ [.infoCurrentVersion (pkgVersionOf w)] ++
         (if remoteEnabled cfg then [.debugCheckingRemote] else []) ++
         [.debugUpdatingPkg] ++ ctLogsOk cfg nv⟩ := by
  unfold versionAction
  rw [phResolve_ok_of o w _ nv hsel hres, orExitR_ok]
  rw [phRemote_dry cfg w _ hd, orExit_ok]
  rw [phStatus_dry cfg w _ hd, orExit_ok]
  rw [phFinish_dry cfg nv w _ hd]

/-- With zero or several bump selectors the version action exits 1
without touching the world at all. -/
theorem versionAction_selectors (o : VersionOptions) (cfg : VerzConfig)
    (w : World) (hsel : (selectorList o).length ≠ 1) :
    (versionAction o cfg w).exitCode = 1 ∧ (versionAction o cfg w).world = w := by
  unfold versionAction
  by_cases h0 : (selectorList o).length = 0
  · rw [show phResolve o (w, bannerLogs o.dryRun) =
        .error ⟨w, 1, bannerLogs o.dryRun ++ [.errorNoBumpOption]⟩ from
        by simp [phResolve, h0], orExitR_error]
    exact ⟨rfl, rfl⟩
  · have h1 : 1 < (selectorList o).length := by omega
    rw [show phResolve o (w, bannerLogs o.dryRun) =
        .error ⟨w, 1, bannerLogs o.dryRun ++
                      [.errorMultipleBumpOptions (selectorList o)]⟩ from
        by simp [phResolve, h0, h1], orExitR_error]
    exact ⟨rfl, rfl⟩

/-- In a real run on a dirty manifest the version action always exits 1
with the manifest bytes untouched. -/
theorem versionAction_dirty (o : VersionOptions) (cfg : VerzConfig)
    (w : World) (hd : cfg.dryRun = false) (hdirty : w.git.statusPkg ≠ "") :
    (versionAction o cfg w).exitCode = 1 ∧
    (versionAction o cfg w).world.manifestRaw = w.manifestRaw := by
  unfold versionAction
  rcases hr : phResolve o (w, bannerLogs o.dryRun) with r | ⟨⟨w1, logs1⟩, nv⟩
  · rw [orExitR_error]
    obtain ⟨hc, hw⟩ := (phResolve_spec o _).1 r hr
    exact ⟨hc, by rw [hw]⟩
  · have h1 := ((phResolve_spec o _).2 _ nv hr).1
    simp only [] at h1
    subst h1
    rw [orExitR_ok]
    rcases hrem : phRemote cfg (w1, logs1) with r2 | ⟨w2, logs2⟩
    · rw [orExit_error]
      obtain ⟨hc, hraw, _⟩ := phRemote_err cfg w1 logs1 r2 hrem
      exact ⟨hc, hraw⟩
    · rw [orExit_ok]
      obtain ⟨hraw2, _, hstat2, _⟩ := phRemote_ok cfg w1 logs1 (w2, logs2) hrem
      simp only [] at hraw2 hstat2
      have hdirty2 : w2.git.statusPkg ≠ "" := by rw [hstat2]; exact hdirty
      rw [phStatus_dirty cfg w2 logs2 hd hdirty2, orExit_error]
      exact ⟨rfl, hraw2⟩

/-- Across every path of the version action, the stash count is restored
and the stash is popped exactly as often as it was pushed (at most once). -/
theorem versionAction_stash (o : VersionOptions) (cfg : VerzConfig)
    (w : World) :
    (versionAction o cfg w).world.git.stashCount = w.git.stashCount ∧
    ∃ d, d ≤ 1 ∧
      (versionAction o cfg w).world.git.stashPushes = w.git.stashPushes + d ∧
      (versionAction o cfg w).world.git.stashPops = w.git.stashPops + d := by
  unfold versionAction
  rcases hr : phResolve o (w, bannerLogs o.dryRun) with r | ⟨⟨w1, logs1⟩, nv⟩
  · rw [orExitR_error]
    have hw := ((phResolve_spec o _).1 r hr).2
    rw [hw]
    exact ⟨rfl, 0, by omega, by simp, by simp⟩
  · have h1 := ((phResolve_spec o _).2 _ nv hr).1
    simp only [] at h1
    subst h1
    rw [orExitR_ok]
    rcases hrem : phRemote cfg (w1, logs1) with r2 | ⟨w2, logs2⟩
    · rw [orExit_error]
      obtain ⟨_, _, _, hsc, hpush, hpop, _, _⟩ :=
        phRemote_err cfg w1 logs1 r2 hrem
      exact ⟨hsc, 0, by omega, by simp [hpush], by simp [hpop]⟩
    · rw [orExit_ok]
      obtain ⟨_, _, _, _, _, _, hsc2, hpush2, hpop2, _, _, _⟩ :=
        phRemote_ok cfg w1 logs1 (w2, logs2) hrem
      simp only [] at hsc2 hpush2 hpop2
      rcases hstat : phStatus cfg (w2, logs2) with r3 | ⟨w3, logs3⟩
      · rw [orExit_error]
        obtain ⟨_, _, _, hsc3, hpush3, hpop3, _, _⟩ :=
          phStatus_err cfg w2 logs2 r3 hstat
        exact ⟨by rw [hsc3, hsc2], 0, by omega,
               by simp [hpush3, hpush2], by simp [hpop3, hpop2]⟩
      · rw [orExit_ok]
        obtain ⟨_, _, _, _, _, hsc3, hpush3, hpop3, _, _, _⟩ :=
          phStatus_ok cfg w2 logs2 (w3, logs3) hstat
        simp only [] at hsc3 hpush3 hpop3
        obtain ⟨_, hsc4, ⟨d, hd1, hpush4, hpop4⟩, _⟩ :=
          phFinish_spec cfg nv w3 logs3
        exact ⟨by rw [hsc4, hsc3, hsc2], d, hd1,
               by rw [hpush4, hpush3, hpush2],
               by rw [hpop4, hpop3, hpop2]⟩

/-- A real run that passes every guard (clean manifest, not behind the
remote) and resolves its version completes with exit code 0, writes
exactly the re-serialized manifest, restores the stash count, and — when
`git commit` is enabled but fails — logs the caught commit/tag failure
while still exiting 0. -/
theorem versionAction_real_spec (o : VersionOptions) (cfg : VerzConfig)
    (w : World) (nv : String) (hd : cfg.dryRun = false)
    (hb : w.git.behindCount = 0) (hclean : w.git.statusPkg = "")
    (hsel : (selectorList o).length = 1)
    (hres : versionResolve o (pkgVersionOf w) = some nv) :
    (versionAction o cfg w).exitCode = 0 ∧
    (versionAction o cfg w).world.manifestRaw =
      versionWriteContent w.manifestPkg nv w.manifestRaw ∧
    (versionAction o cfg w).world.git.stashCount = w.git.stashCount ∧
    (cfg.commit.enabled = true → w.git.commitFails = true →
      LogEntry.errorCommitTagFailed ∈ (versionAction o cfg w).logs) := by
  unfold versionAction
  rw [phResolve_ok_of o w _ nv hsel hres, orExitR_ok]
  rcases hrem : phRemote cfg (w, _) with r2 | ⟨w2, logs2⟩
  · exact absurd hrem (phRemote_noerr cfg w _ hb r2)
  · rw [orExit_ok]
    obtain ⟨hraw2, hpkg2, hstat2, _, hcf2, _, hsc2, _, _, _, _, _⟩ :=
      phRemote_ok cfg w _ (w2, logs2) hrem
    simp only [] at hraw2 hpkg2 hstat2 hcf2 hsc2
    rcases hstat : phStatus cfg (w2, logs2) with r3 | ⟨w3, logs3⟩
    · refine absurd hstat (phStatus_noerr cfg w2 logs2 (Or.inl ?_) r3)
      rw [hstat2]
      exact hclean
    · rw [orExit_ok]
      obtain ⟨hraw3, hpkg3, _, hcf3, _, hsc3, _, _, _, _, _⟩ :=
        phStatus_ok cfg w2 logs2 (w3, logs3) hstat
      simp only [] at hraw3 hpkg3 hcf3 hsc3
      obtain ⟨hcode, hsc4, _, hwr⟩ := phFinish_spec cfg nv w3 logs3
      refine ⟨hcode, ?_, ?_, ?_⟩
      · rw [hwr hd, hpkg3, hpkg2, hraw3, hraw2]
      · rw [hsc4, hsc3, hsc2]
      · intro hce hcf
        have hcf3' : w3.git.commitFails = true := by
          rw [hcf3, hcf2]
          exact hcf
        rw [phFinish_commitFail cfg nv w3 logs3 hd hce hcf3']
        simp

/-- Under dry-run no run of the version action can ever log the
dirty-manifest error or the branch-behind error: the guards they belong
to are vacuous. -/
theorem versionAction_dry_guard_free (o : VersionOptions) (cfg : VerzConfig)
    (w : World) (hd : cfg.dryRun = true) (e : LogEntry)
    (he : e = .errorPkgDirty ∨ ∃ b, e = .errorBranchBehind b) :
    e ∉ (versionAction o cfg w).logs := by
  have hban : e ∉ bannerLogs o.dryRun := by
    rcases he with rfl | ⟨b, rfl⟩ <;> cases hdo : o.dryRun <;> simp [bannerLogs]
  unfold versionAction
  rcases hr : phResolve o (w, bannerLogs o.dryRun) with r | ⟨⟨w1, logs1⟩, nv⟩
  · rw [orExitR_error]
    exact (phResolve_guard_free o _ e hban he).1 r hr
  · have hl1 : e ∉ logs1 := (phResolve_guard_free o _ e hban he).2 _ nv hr
    rw [orExitR_ok]
    rw [phRemote_dry cfg w1 logs1 hd, orExit_ok]
    have hl2 : e ∉ logs1 ++
        (if remoteEnabled cfg then [LogEntry.debugCheckingRemote] else []) := by
      intro hx
      rcases List.mem_append.mp hx with hx | hx
      · exact hl1 hx
      · rcases he with rfl | ⟨b, rfl⟩ <;>
          (cases hre : remoteEnabled cfg <;> simp_all)
    rw [phStatus_dry cfg w1 _ hd, orExit_ok]
    exact phFinish_guard_free cfg nv w1 _ e hl2 he

/-! ### Lemmas about the release action -/

/-- Under dry-run the release action changes nothing in the world. -/
theorem releaseAction_dry_world (ro : ReleaseOptions) (cfg : VerzConfig)
    (w : World) (hd : cfg.dryRun = true) :
    (releaseAction ro cfg w).world = w := by
  unfold releaseAction
  rcases hp : pkgVersionOf w with _ | cv
  · simp
  · rcases hrv : releaseNewVersion (pfxTruthy cfg.release.pfx) cv with e | nv
    · simp [hrv]
    · by_cases hc : cfg.commit.enabled <;> by_cases ht : cfg.tag.enabled <;>
        simp [hrv, exec, hd, hc, ht]

/-- A dry release run whose suffix computation succeeds exits 0 and still
reports the release version it would have produced. -/
theorem releaseAction_dry_ok (ro : ReleaseOptions) (cfg : VerzConfig)
    (w : World) (cv nv : String) (hd : cfg.dryRun = true)
    (hp : pkgVersionOf w = some cv)
    (hrv : releaseNewVersion (pfxTruthy cfg.release.pfx) cv = .ok nv) :
    (releaseAction ro cfg w).exitCode = 0 ∧
    LogEntry.successReleased nv ∈ (releaseAction ro cfg w).logs := by
  unfold releaseAction
  rw [hp]
  simp only [hrv]
  by_cases hc : cfg.commit.enabled <;> by_cases ht : cfg.tag.enabled <;>
    simp [exec, hd, hc, ht]

/-- In a real release run whose suffix computation succeeds, the manifest
is rewritten with the hardcoded two-space serialization — whatever the
original file's indentation was, and before commit/tag can fail. -/
theorem releaseAction_write_real (ro : ReleaseOptions) (cfg : VerzConfig)
    (w : World) (cv nv : String) (hd : cfg.dryRun = false)
    (hp : pkgVersionOf w = some cv)
    (hrv : releaseNewVersion (pfxTruthy cfg.release.pfx) cv = .ok nv) :
    (releaseAction ro cfg w).world.manifestRaw =
      releaseWriteContent w.manifestPkg nv := by
  unfold releaseAction
  rw [hp]
  simp only [hrv]
  by_cases hc : cfg.commit.enabled <;> by_cases ht : cfg.tag.enabled <;>
    cases hcf : w.git.commitFails <;> cases htf : w.git.tagFails <;>
      simp [exec, runGitCmd, hd, hc, ht, hcf, htf]

/-- In a real release run with commits enabled and a failing `git commit`
the action exits 1 and logs the release-phase failure (unlike the version
command, which exits 0 in the same situation). -/
theorem releaseAction_commitFail (ro : ReleaseOptions) (cfg : VerzConfig)
    (w : World) (cv nv : String) (hd : cfg.dryRun = false)
    (hc : cfg.commit.enabled = true) (hcf : w.git.commitFails = true)
    (hp : pkgVersionOf w = some cv)
    (hrv : releaseNewVersion (pfxTruthy cfg.release.pfx) cv = .ok nv) :
    (releaseAction ro cfg w).exitCode = 1 ∧
    LogEntry.errorReleaseCommitTagFailed ∈ (releaseAction ro cfg w).logs := by
  unfold releaseAction
  rw [hp]
  simp only [hrv]
  simp [exec, runGitCmd, hd, hc, hcf]

/-! ### Lemmas about the tag action -/

/-- Under dry-run the tag action changes nothing in the world. -/
theorem tagAction_dry_world (to' : TagOptions) (cfg : VerzConfig) (w : World)
    (hd : cfg.dryRun = true) : (tagAction to' cfg w).world = w := by
  unfold tagAction
  rcases hp : pkgVersionOf w with _ | cv
  · simp
  · by_cases hcv : cv = ""
    · simp [hcv]
    · by_cases ht : cfg.tag.enabled <;> simp [hcv, ht, hd]

/-- With tagging disabled and a truthy current version, the tag action
reports the disabled-tagging error, exits 1, and changes nothing. -/
theorem tagAction_disabled (to' : TagOptions) (cfg : VerzConfig) (w : World)
    (cv : String) (hp : pkgVersionOf w = some cv) (hcv : cv ≠ "")
    (ht : cfg.tag.enabled = false) :
    tagAction to' cfg w =
      ⟨w, 1, bannerLogs to'.dryRun ++
             [.infoCurrentVersion (some cv), .errorTagDisabled]⟩ := by
  unfold tagAction
  rw [hp]
  simp [hcv, ht]

/-- A dry tag run with tagging enabled and a truthy current version exits
0 and still reports the tag it would have created. -/
theorem tagAction_dry_ok (to' : TagOptions) (cfg : VerzConfig) (w : World)
    (cv : String) (hd : cfg.dryRun = true) (hp : pkgVersionOf w = some cv)
    (hcv : cv ≠ "") (ht : cfg.tag.enabled = true) :
    (tagAction to' cfg w).exitCode = 0 ∧
    LogEntry.successTagCreated (replaceFirst cfg.tag.name "%v" cv) ∈
      (tagAction to' cfg w).logs := by
  unfold tagAction
  rw [hp]
  simp [hcv, ht, hd]

/-! ### Order lemmas for the semver model -/

/-- Comparing a number with itself. -/
theorem cmpNat_self (a : Nat) : cmpNat a a = .eq := by
  simp [cmpNat]

/-- Comparing with a strictly larger number. -/
theorem cmpNat_lt_of (a b : Nat) (h : a < b) : cmpNat a b = .lt := by
  simp [cmpNat, h]

/-- Comparing a character list with itself. -/
theorem cmpCharList_self (l : List Char) : cmpCharList l l = .eq := by
  induction l with
  | nil => rfl
  | cons a as ih => simp [cmpCharList, cmpChar, cmpNat_self, ih]

/-- Comparing a string with itself. -/
theorem cmpStr_self (s : String) : cmpStr s s = .eq :=
  cmpCharList_self _

/-- A `major` bump is strictly semver-greater. -/
theorem lt_incMajor (v : Semver) (preid : String) :
    ltSemver v (incVersion .major preid v) := by
  unfold ltSemver
  simp only [incVersion]
  split
  · unfold cmpSemver
    rw [cmpNat_lt_of v.major (v.major + 1) (Nat.lt_succ_self _)]
  · rename_i h
    push_neg at h
    obtain ⟨h1, h2, h3⟩ := h
    unfold cmpSemver
    simp only [h1, h2, cmpNat_self]
    cases hpre : v.pre with
    | nil => exact absurd hpre h3
    | cons x xs => simp [hpre, cmpRelease]

/-- A `minor` bump is strictly semver-greater. -/
theorem lt_incMinor (v : Semver) (preid : String) :
    ltSemver v (incVersion .minor preid v) := by
  unfold ltSemver
  simp only [incVersion]
  split
  · unfold cmpSemver
    rw [cmpNat_self, cmpNat_lt_of v.minor (v.minor + 1) (Nat.lt_succ_self _)]
  · rename_i h
    push_neg at h
    obtain ⟨h1, h2⟩ := h
    unfold cmpSemver
    simp only [h1, cmpNat_self]
    cases hpre : v.pre with
    | nil => exact absurd hpre h2
    | cons x xs => simp [hpre, cmpRelease]

/-- A `patch` bump is strictly semver-greater. -/
theorem lt_incPatch (v : Semver) (preid : String) :
    ltSemver v (incVersion .patch preid v) := by
  unfold ltSemver
  simp only [incVersion]
  split
  · unfold cmpSemver
    rw [cmpNat_self, cmpNat_self,
        cmpNat_lt_of v.patch (v.patch + 1) (Nat.lt_succ_self _)]
  · rename_i h
    unfold cmpSemver
    simp only [cmpNat_self]
    cases hpre : v.pre with
    | nil => exact absurd hpre h
    | cons x xs => simp [hpre, cmpRelease]

/-- A `prerelease` bump is strictly semver-greater when the current
version has no prerelease, or already carries the requested identifier
with a numeric counter. -/
theorem lt_incPrerelease (v : Semver) (preid : String)
    (h : v.pre = [] ∨ ∃ n, v.pre = [.alnum preid, .num n]) :
    ltSemver v (incVersion .prerelease preid v) := by
  rcases h with h | ⟨n, h⟩
  · unfold ltSemver
    simp only [incVersion, h]
    unfold cmpSemver
    rw [h, cmpNat_self, cmpNat_self,
        cmpNat_lt_of v.patch (v.patch + 1) (Nat.lt_succ_self _)]
  · unfold ltSemver
    simp only [incVersion, h]
    unfold cmpSemver
    rw [h, cmpNat_self, cmpNat_self, cmpNat_self]
    simp [bumpPre, cmpRelease, cmpIdent, cmpStr_self,
          cmpNat_lt_of n (n + 1) (Nat.lt_succ_self n)]

/-- The exact mode returns precisely the supplied value: a truthy, valid
`--version` resolves to itself. -/
theorem versionResolve_exact (o : VersionOptions) (pkgv : Option String)
    (s : String) (hov : o.version = some s) (hs : s ≠ "")
    (hval : semverValid s = true) :
    versionResolve o pkgv = some s := by
  have hvt : versionTruthy o = true := by simp [versionTruthy, hov, hs]
  rw [versionResolve, if_pos hvt, hov]
  simp [hval]

/-! ### Lemmas about indent detection and the serialized manifest -/

/-- Every element of a `takeWhile` satisfies the predicate. -/
theorem takeWhile_all (p : Char → Bool) (l : List Char) :
    (l.takeWhile p).all p = true := by
  induction l with
  | nil => rfl
  | cons x xs ih =>
    by_cases hx : p x <;> simp [List.takeWhile_cons, hx, ih]

/-- A detected per-line indent is the line's leading run of tabs or of
spaces: it is nonempty and homogeneous, and its first character tells
which. -/
theorem lineIndent_shape (a t : List Char) (h : lineIndent a = some t) :
    (∃ t', t = '\t' :: t' ∧ t.all (· = '\t') = true) ∨
    (∃ t', t = ' ' :: t' ∧ t.all (· = ' ') = true) := by
  unfold lineIndent at h
  split at h
  · rename_i as
    cases h
    right
    exact ⟨as.takeWhile (· = ' '), by simp, takeWhile_all _ _⟩
  · rename_i as
    cases h
    left
    exact ⟨as.takeWhile (· = '\t'), by simp, takeWhile_all _ _⟩
  · cases h

/-- The first detected indent comes from some line of the file. -/
theorem firstIndent_from_line (raw : String) (t : List Char)
    (h : firstIndentOf raw = some t) : ∃ a, lineIndent a = some t := by
  unfold firstIndentOf at h
  have hmem : t ∈ (splitOnChar '\n' raw.toList).filterMap lineIndent :=
    List.mem_of_mem_head? h
  obtain ⟨a, _, ha⟩ := List.mem_filterMap.mp hmem
  exact ⟨a, ha⟩

/-- When an indent run is detected, `detectIndent` returns exactly it. -/
theorem detectIndent_of_first (raw : String) (t : List Char)
    (h : firstIndentOf raw = some t) : detectIndent raw = String.mk t := by
  unfold detectIndent
  rw [h]

/-- When no indent run is detected, `detectIndent` defaults to two
spaces. -/
theorem detectIndent_default (raw : String)
    (h : firstIndentOf raw = none) : detectIndent raw = "  " := by
  unfold detectIndent
  rw [h]

/-- A homogeneous nonempty list is a `replicate`. -/
theorem all_eq_replicate (c : Char) (t : List Char)
    (h : t.all (· = c) = true) : t = List.replicate t.length c := by
  rw [List.eq_replicate_iff]
  refine ⟨rfl, fun b hb => ?_⟩
  have := List.all_eq_true.mp h b hb
  simpa using this

/-- `splitOnChar` never returns an empty list of segments. -/
theorem splitOnChar_ne_nil (c : Char) (l : List Char) :
    splitOnChar c l ≠ [] := by
  induction l with
  | nil => simp [splitOnChar]
  | cons x xs ih =>
    unfold splitOnChar
    by_cases hx : x = c
    · simp [hx]
    · simp only [hx, if_false]
      rcases hr : splitOnChar c xs with _ | ⟨h0, t0⟩ <;> simp

/-- Splitting a list whose head segment is separator-free. -/
theorem splitOnChar_append (c : Char) (xs ys : List Char) (h : c ∉ xs) :
    splitOnChar c (xs ++ c :: ys) = xs :: splitOnChar c ys := by
  induction xs with
  | nil => simp [splitOnChar]
  | cons x xs ih =>
    have hx : ¬ x = c := fun hh => h (hh ▸ List.mem_cons_self x xs)
    have ht : c ∉ xs := fun hm => h (List.mem_cons_of_mem _ hm)
    simp [splitOnChar, ih ht, hx]

/-- A prefix of an extended list. -/
theorem isPrefixOfList_append (l m : List Char) :
    isPrefixOfList l (l ++ m) = true := by
  induction l with
  | nil => rfl
  | cons x xs ih => simp [isPrefixOfList, ih]

/-- A left factor of a prefix is itself a prefix. -/
theorem isPrefixOfList_of_append (a b l : List Char)
    (h : isPrefixOfList (a ++ b) l = true) : isPrefixOfList a l = true := by
  induction a generalizing l with
  | nil => rfl
  | cons x xs ih =>
    cases l with
    | nil => simp [isPrefixOfList] at h
    | cons y ys =>
      simp only [List.cons_append, isPrefixOfList, Bool.and_eq_true] at h ⊢
      exact ⟨h.1, ih ys h.2⟩

/-- Every line of the joined member block (followed by the closing brace
line) is the closing brace or extends one of the members. -/
theorem splitOnChar_joinLines (items : List (List Char)) :
    (∀ i ∈ items, '\n' ∉ i) → items ≠ [] →
    ∀ l ∈ splitOnChar '\n' (joinLines items ++ '\n' :: [braceC]),
      l = [braceC] ∨ ∃ i ∈ items, isPrefixOfList i l = true := by
  induction items with
  | nil => intro _ hne; cases hne rfl
  | cons i rest ih =>
    intro h _
    cases rest with
    | nil =>
      intro l hl
      rw [show joinLines [i] = i from rfl] at hl
      rw [splitOnChar_append '\n' i [braceC] (h i (List.mem_cons_self _ _))] at hl
      rw [show splitOnChar '\n' [braceC] = [[braceC]] from rfl] at hl
      rcases List.mem_cons.mp hl with hl | hl
      · right
        refine ⟨i, List.mem_cons_self _ _, ?_⟩
        have hip := isPrefixOfList_append i []
        rw [hl]
        simpa using hip
      · left
        simpa using hl
    | cons j rest' =>
      intro l hl
      rw [show joinLines (i :: j :: rest') =
          (i ++ [',']) ++ '\n' :: joinLines (j :: rest') from by
            simp [joinLines]] at hl
      rw [List.append_assoc] at hl
      rw [show ('\n' :: joinLines (j :: rest')) ++ '\n' :: [braceC] =
          '\n' :: (joinLines (j :: rest') ++ '\n' :: [braceC]) from by simp] at hl
      have hnc : '\n' ∉ i ++ [','] := by
        intro hm
        rcases List.mem_append.mp hm with hm | hm
        · exact h i (List.mem_cons_self _ _) hm
        · simp at hm
      rw [splitOnChar_append '\n' (i ++ [',']) _ hnc] at hl
      rcases List.mem_cons.mp hl with hl | hl
      · right
        exact ⟨i, List.mem_cons_self _ _,
          by rw [hl]; exact isPrefixOfList_append i [',']⟩
      · have := ih (fun x hx => h x (List.mem_cons_of_mem _ hx))
          (by simp) l hl
        rcases this with hb | ⟨x, hx, hp⟩
        · exact Or.inl hb
        · exact Or.inr ⟨x, List.mem_cons_of_mem _ hx, hp⟩

/-- Escaping never produces a newline character. -/
theorem escC_no_newline (c : Char) : '\n' ∉ escC c := by
  unfold escC
  split
  · decide
  split
  · decide
  split
  · decide
  split
  · decide
  split
  · decide
  rename_i h1 h2 h3 h4 h5
  intro hm
  simp only [List.mem_singleton] at hm
  exact h3 hm.symm

/-- A quoted JSON string contains no newline character. -/
theorem jsonQuote_no_newline (s : String) : '\n' ∉ (jsonQuote s).toList := by
  unfold jsonQuote
  have haux : ∀ l : List Char,
      '\n' ∉ l.foldr (fun c acc => escC c ++ acc) ['"'] := by
    intro l
    induction l with
    | nil => simp
    | cons x xs ih =>
      simp only [List.foldr_cons]
      intro hm
      rcases List.mem_append.mp hm with hm | hm
      · exact escC_no_newline x hm
      · exact ih hm
  intro hm
  rcases hm with _ | hm
  exact haux s.toList (by assumption)

/-- A serialized member line contains no newline character. -/
theorem jsonMember_no_newline (kv : String × String) :
    '\n' ∉ (jsonMember kv).toList := by
  unfold jsonMember
  intro hm
  simp only [String.toList, String.data_append] at hm
  rcases List.mem_append.mp hm with hm | hm
  · rcases List.mem_append.mp hm with hm | hm
    · exact jsonQuote_no_newline kv.1 hm
    · simp [String.toList] at hm
  · exact jsonQuote_no_newline kv.2 hm

/-- Every line of the serialized manifest is the opening brace, the
closing brace, or starts with the (ten-character-capped) gap. -/
theorem stringify_lines (pairs : List (String × String)) (ind : String)
    (hne : pairs ≠ []) (hnl : '\n' ∉ ind.toList) :
    ∀ l ∈ splitOnChar '\n' (stringifyPkg pairs ind).toList,
      l = [braceO] ∨ l = [braceC] ∨
        isPrefixOfList (ind.toList.take 10) l = true := by
  intro l hl
  rcases pairs with _ | ⟨p, rest⟩
  · cases hne rfl
  · have hchg : (stringifyPkg (p :: rest) ind).toList =
        [braceO] ++ '\n' ::
          (joinLines ((p :: rest).map fun kv =>
            ind.toList.take 10 ++ (jsonMember kv).toList) ++ '\n' :: [braceC]) := rfl
    rw [hchg] at hl
    rw [splitOnChar_append '\n' [braceO] _ (by decide)] at hl
    rcases List.mem_cons.mp hl with hl | hl
    · exact Or.inl hl
    · have hitems : ∀ i ∈ (p :: rest).map fun kv =>
          ind.toList.take 10 ++ (jsonMember kv).toList, '\n' ∉ i := by
        intro i hi
        obtain ⟨kv, _, rfl⟩ := List.mem_map.mp hi
        intro hm
        rcases List.mem_append.mp hm with hm | hm
        · exact hnl (List.take_subset 10 _ hm)
        · exact jsonMember_no_newline kv hm
      have := splitOnChar_joinLines _ hitems (by simp) l hl
      rcases this with hb | ⟨i, hi, hp⟩
      · exact Or.inr (Or.inl hb)
      · obtain ⟨kv, _, rfl⟩ := List.mem_map.mp hi
        exact Or.inr (Or.inr (isPrefixOfList_of_append _ _ _ hp))

/-! ### Final serialization facts and string glue -/

/-- String concatenation is associative. -/
theorem strAppend_assoc (a b c : String) : a ++ b ++ c = a ++ (b ++ c) := by
  rcases a with ⟨la⟩
  rcases b with ⟨lb⟩
  rcases c with ⟨lc⟩
  show String.mk (la ++ lb ++ lc) = String.mk (la ++ (lb ++ lc))
  rw [List.append_assoc]

/-- Setting the version field never empties the manifest object. -/
theorem setPkgVersion_ne_nil (pkg : List (String × String)) (nv : String) :
    setPkgVersion pkg nv ≠ [] := by
  cases pkg with
  | nil => simp [setPkgVersion]
  | cons kv rest =>
    rcases kv with ⟨k, v⟩
    unfold setPkgVersion
    split <;> simp

/-- The detected indent never contains a newline: it is either the
two-space default or a homogeneous run of tabs or of spaces. -/
theorem detectIndent_no_newline (raw : String) :
    '\n' ∉ (detectIndent raw).toList := by
  rcases h : firstIndentOf raw with _ | t
  · rw [detectIndent_default raw h]
    decide
  · rw [detectIndent_of_first raw t h]
    obtain ⟨a, ha⟩ := firstIndent_from_line raw t h
    rcases lineIndent_shape a t ha with ⟨t', ht', hall⟩ | ⟨t', ht', hall⟩ <;>
    · intro hm
      have hm' : '\n' ∈ t := hm
      have := List.all_eq_true.mp hall '\n' hm'
      subst ht'
      simp at this

/-- The serialized manifest always ends in the closing brace. -/
theorem stringify_ends_brace (pairs : List (String × String)) (ind : String) :
    ∃ l0, (stringifyPkg pairs ind).toList = l0 ++ [braceC] := by
  cases pairs with
  | nil => exact ⟨[braceO], rfl⟩
  | cons p rest =>
    have hc : (stringifyPkg (p :: rest) ind).toList =
        braceO :: '\n' :: (joinLines ((p :: rest).map fun kv =>
          ind.toList.take 10 ++ (jsonMember kv).toList) ++ ['\n', braceC]) := rfl
    exact ⟨braceO :: '\n' :: (joinLines ((p :: rest).map fun kv =>
      ind.toList.take 10 ++ (jsonMember kv).toList) ++ ['\n']),
      by rw [hc]; simp [List.append_assoc]⟩

/-! ### Concrete inputs

A small effective configuration, repository and manifest used to witness
the claims on concrete runs. -/

/-- A real-run configuration: commits and tags on, release prefix `qa`,
no remote section. -/
def cfgR : VerzConfig :=
  ⟨⟨true, "chore: version %v"⟩, ⟨true, "%v"⟩, false, none, ⟨some "qa"⟩⟩

/-- The same configuration with `--dry-run`. -/
def cfgDry : VerzConfig :=
  ⟨⟨true, "chore: version %v"⟩, ⟨true, "%v"⟩, true, none, ⟨some "qa"⟩⟩

/-- A real-run configuration with tagging disabled. -/
def cfgNoTag : VerzConfig :=
  ⟨⟨true, "chore: version %v"⟩, ⟨false, "%v"⟩, false, none, ⟨none⟩⟩

/-- A clean repository on `main`. -/
def gClean : GitState := ⟨"main", true, 0, "", "", 0, 0, 0, [], [], false, false, 0⟩

/-- A repository whose `package.json` has uncommitted changes. -/
def gDirty : GitState := { gClean with statusPkg := " M package.json" }

/-- A repository with unstaged diffs whose `git commit` fails. -/
def gCommitFail : GitState :=
  { gClean with diffHead := "diff --git a/x b/x", commitFails := true }

/-- The parsed manifest. -/
def pkgApp : List (String × String) := [("name", "app"), ("version", "1.2.0")]

/-- A two-space-indented manifest file. -/
def rawTwoSpace : String :=
  "\x7b\n  \"name\": \"app\",\n  \"version\": \"1.2.0\"\n\x7d\n"

/-- A tab-indented manifest file. -/
def rawTab : String :=
  "\x7b\n\t\"name\": \"app\",\n\t\"version\": \"1.2.0\"\n\x7d\n"

/-- Clean repository, two-space manifest. -/
def wClean : World := ⟨rawTwoSpace, pkgApp, gClean⟩

/-- Dirty manifest (uncommitted changes to `package.json`). -/
def wDirty : World := ⟨rawTwoSpace, pkgApp, gDirty⟩

/-- Clean repository, tab-indented manifest. -/
def wTab : World := ⟨rawTab, pkgApp, gClean⟩

/-- Unstaged diffs present and a failing `git commit`. -/
def wCommitFail : World := ⟨rawTwoSpace, pkgApp, gCommitFail⟩

/-- `verz version --patch`. -/
def oPatch : VersionOptions :=
  ⟨true, false, false, none, none, none, none, true, false, false⟩

/-- `verz version` with no bump selector. -/
def oNone : VersionOptions :=
  ⟨false, false, false, none, none, none, none, true, false, false⟩

/-- `verz version --patch --minor` (two selectors). -/
def oTwoSel : VersionOptions :=
  ⟨true, true, false, none, none, none, none, true, false, false⟩

/-- `verz version --version 2.0.0` (exact mode). -/
def oExact : VersionOptions :=
  ⟨false, false, false, none, some "2.0.0", none, none, true, false, false⟩

/-- `verz release` options. -/
def oRel : ReleaseOptions := ⟨none, none, none, false, false⟩

/-- `verz tag` options. -/
def oTag : TagOptions := ⟨none, false, false⟩

/-- Splitting an appended string into its character lists. -/
theorem toList_append (a b : String) : (a ++ b).toList = a.toList ++ b.toList := by
  rcases a with ⟨la⟩
  rcases b with ⟨lb⟩
  rfl

/-! ### The claims

Each claim of the specification is settled by one theorem below; a theorem
with hypotheses comes with a closed witness run on the concrete inputs
above, and a refuted sentence comes with a closed counterexample. -/

/-- C1: In a real (non-dry) run of the `version` command, whatever bump
mode the options select, a manifest with uncommitted changes (nonempty
`git status --porcelain package.json`) makes the run exit with code 1 and
leaves the manifest bytes unchanged.  The specification extends this
guard to the `release` mode, which `C1_release_dirty_write` refutes: the
claim holds only for the `version` command. -/
theorem C1_version_dirty_abort (o : VersionOptions) (cfg : VerzConfig)
    (w : World) (hd : cfg.dryRun = false) (hdirty : w.git.statusPkg ≠ "") :
    (versionAction o cfg w).exitCode = 1 ∧
    (versionAction o cfg w).world.manifestRaw = w.manifestRaw :=
  versionAction_dirty o cfg w hd hdirty

/-- C1 witness: the dirty-manifest guard firing on a concrete patch run. -/
theorem C1_version_dirty_abort_witness :
    cfgR.dryRun = false ∧ wDirty.git.statusPkg ≠ "" ∧
    (versionAction oPatch cfgR wDirty).exitCode = 1 ∧
    (versionAction oPatch cfgR wDirty).world.manifestRaw = wDirty.manifestRaw := by
  have h := C1_version_dirty_abort oPatch cfgR wDirty rfl (by decide)
  exact ⟨rfl, by decide, h.1, h.2⟩

/-- C1 counterexample: the `release` command has no manifest-clean check —
on the same dirty manifest a real release run exits 0 and rewrites the
manifest on disk, so the claim's "every bump mode (..., and release)" is
false as written. -/
theorem C1_release_dirty_write :
    wDirty.git.statusPkg ≠ "" ∧
    (releaseAction oRel cfgR wDirty).exitCode = 0 ∧
    (releaseAction oRel cfgR wDirty).world.manifestRaw =
      "\x7b\n  \"name\": \"app\",\n  \"version\": \"1.2.0-qa-r1\"\n\x7d\n" ∧
    (releaseAction oRel cfgR wDirty).world.manifestRaw ≠ wDirty.manifestRaw :=
  ⟨by decide, rfl, rfl, by decide⟩

/-- C2: across every run of the `version` command — every option set,
configuration and repository state, including failing commits or tags —
the stash count is restored and the stash is popped exactly as often as it
was pushed (at most once). -/
theorem C2_stash_balanced (o : VersionOptions) (cfg : VerzConfig) (w : World) :
    (versionAction o cfg w).world.git.stashCount = w.git.stashCount ∧
    ∃ d, d ≤ 1 ∧
      (versionAction o cfg w).world.git.stashPushes = w.git.stashPushes + d ∧
      (versionAction o cfg w).world.git.stashPops = w.git.stashPops + d :=
  versionAction_stash o cfg w

/-- C3: under dry-run all three command actions leave the world — manifest
bytes, commits, tags, stash counters and the subprocess count — untouched,
and each still reports the version (or tag) a real run would have
produced. -/
theorem C3_dry_run_frame (o : VersionOptions) (ro : ReleaseOptions)
    (to' : TagOptions) (cfg : VerzConfig) (w : World)
    (hd : cfg.dryRun = true) :
    (versionAction o cfg w).world = w ∧
    (releaseAction ro cfg w).world = w ∧
    (tagAction to' cfg w).world = w ∧
    (∀ nv, (selectorList o).length = 1 →
      versionResolve o (pkgVersionOf w) = some nv →
      (versionAction o cfg w).exitCode = 0 ∧
      LogEntry.successBumped nv ∈ (versionAction o cfg w).logs) ∧
    (∀ cv nv, pkgVersionOf w = some cv →
      releaseNewVersion (pfxTruthy cfg.release.pfx) cv = .ok nv →
      (releaseAction ro cfg w).exitCode = 0 ∧
      LogEntry.successReleased nv ∈ (releaseAction ro cfg w).logs) ∧
    (∀ cv, pkgVersionOf w = some cv → cv ≠ "" → cfg.tag.enabled = true →
      (tagAction to' cfg w).exitCode = 0 ∧
      LogEntry.successTagCreated (replaceFirst cfg.tag.name "%v" cv) ∈
        (tagAction to' cfg w).logs) := by
  refine ⟨versionAction_dry_world o cfg w hd,
          releaseAction_dry_world ro cfg w hd,
          tagAction_dry_world to' cfg w hd, ?_, ?_, ?_⟩
  · intro nv hsel hres
    rw [versionAction_dry_success o cfg w nv hd hsel hres]
    exact ⟨rfl, by simp [ctLogsOk]⟩
  · intro cv nv hp hrv
    exact releaseAction_dry_ok ro cfg w cv nv hd hp hrv
  · intro cv hp hcv ht
    exact tagAction_dry_ok to' cfg w cv hd hp hcv ht

/-- C3 witness: a concrete dry patch run on a dirty-free world changes
nothing and reports the would-be version `1.2.1`. -/
theorem C3_dry_run_frame_witness :
    cfgDry.dryRun = true ∧
    (versionAction oPatch cfgDry wClean).world = wClean ∧
    (releaseAction oRel cfgDry wClean).world = wClean ∧
    (tagAction oTag cfgDry wClean).world = wClean ∧
    (versionAction oPatch cfgDry wClean).exitCode = 0 ∧
    LogEntry.successBumped "1.2.1" ∈ (versionAction oPatch cfgDry wClean).logs := by
  have h := C3_dry_run_frame oPatch oRel oTag cfgDry wClean rfl
  exact ⟨rfl, h.1, h.2.1, h.2.2.1, (h.2.2.2.1 "1.2.1" rfl rfl).1,
         (h.2.2.2.1 "1.2.1" rfl rfl).2⟩

/-- C4: the release-suffix computation as implemented: without a
configured prefix the bare `r<N>` counter does chain
`1.2.0 → r1 → r2 → r3`; with a configured prefix every successful
computation returns `<first segment>-<prefix>-r<k>`, rebuilding the
version from the base segment alone and discarding every other segment —
so a prefix switch drops, rather than preserves, the old prefix's
counter.  The claim's prefixed chain itself breaks on its second
invocation (`C4_prefixed_chain_breaks`). -/
theorem C4_release_suffix :
    releaseNewVersion none "1.2.0" = .ok "1.2.0-r1" ∧
    releaseNewVersion none "1.2.0-r1" = .ok "1.2.0-r2" ∧
    releaseNewVersion none "1.2.0-r2" = .ok "1.2.0-r3" ∧
    (∀ p cv nv, releaseNewVersion (some p) cv = .ok nv →
      ∃ k, nv = ((splitOnChar '-' cv.toList).map String.mk).headD "" ++
        "-" ++ p ++ ("-r" ++ Nat.repr k)) := by
  refine ⟨rfl, rfl, rfl, ?_⟩
  intro p cv nv h
  simp only [releaseNewVersion] at h
  rcases hf : ((splitOnChar '-' cv.toList).map String.mk).find?
      (fun part => jsStartsWith part p) with _ | seg
  · rw [hf] at h
    simp only [] at h
    refine ⟨1, ?_⟩
    cases h
    rw [show ("-r" ++ Nat.repr 1 : String) = "-r1" from rfl]
  · rw [hf] at h
    simp only [] at h
    rcases hrt : rTrailing seg with _ | n
    · rw [hrt] at h
      simp at h
    · rw [hrt] at h
      refine ⟨n + 1, ?_⟩
      cases h
      rw [strAppend_assoc]

/-- C4 counterexample: applying `release(prefix="qa")` to its own output
fails (`Invalid release format`) instead of producing `1.2.0-qa-r2`, and
switching to `prefix="stage"` on `1.2.0-qa-r2` yields `1.2.0-stage-r1`,
discarding the qa counter entirely. -/
theorem C4_prefixed_chain_breaks :
    releaseNewVersion (some "qa") "1.2.0" = .ok "1.2.0-qa-r1" ∧
    releaseNewVersion (some "qa") "1.2.0-qa-r1" = .error () ∧
    releaseNewVersion (some "stage") "1.2.0-qa-r2" = .ok "1.2.0-stage-r1" :=
  ⟨rfl, rfl, rfl⟩

/-- C5: of the version command's bump modes, `major`, `minor` and `patch`
always produce a strictly semver-greater version, `prerelease` does so
when the current version has no prerelease or already carries the
requested identifier with a numeric counter, and the exact mode returns
precisely the supplied value.  The claim's "every bump mode" is refuted
by `C5_not_always_increasing`: release-suffix bumps and a prerelease bump
to a lexicographically smaller identifier can decrease the version. -/
theorem C5_bump_increases (v : Semver) (preid : String) :
    ltSemver v (incVersion .major preid v) ∧
    ltSemver v (incVersion .minor preid v) ∧
    ltSemver v (incVersion .patch preid v) ∧
    ((v.pre = [] ∨ ∃ n, v.pre = [.alnum preid, .num n]) →
      ltSemver v (incVersion .prerelease preid v)) ∧
    (∀ (o : VersionOptions) (pkgv : Option String) (s : String),
      o.version = some s → s ≠ "" → semverValid s = true →
      versionResolve o pkgv = some s) :=
  ⟨lt_incMajor v preid, lt_incMinor v preid, lt_incPatch v preid,
   fun h => lt_incPrerelease v preid h,
   fun o pkgv s hov hs hval => versionResolve_exact o pkgv s hov hs hval⟩

/-- C5 counterexample: the release command's suffix bump takes
`1.2.0-r9` to `1.2.0-r10`, which is semver-smaller (alphanumeric
identifiers compare lexically, `"r10" < "r9"`), and a prerelease bump of
`1.2.3-rc.1` with the identifier `alpha` yields the semver-smaller
`1.2.3-alpha.0`. -/
theorem C5_not_always_increasing :
    releaseNewVersion none "1.2.0-r9" = .ok "1.2.0-r10" ∧
    cmpSemverStr "1.2.0-r9" "1.2.0-r10" = some .gt ∧
    semverInc "1.2.3-rc.1" .prerelease "alpha" = some "1.2.3-alpha.0" ∧
    cmpSemverStr "1.2.3-rc.1" "1.2.3-alpha.0" = some .gt :=
  ⟨rfl, rfl, rfl, rfl⟩

/-- C6: invoking the version command with zero bump selectors, or with two
or more of `patch`, `minor`, `major`, `prerelease`, `version`, always
exits with code 1 before any mutation — the world is returned exactly as
it was. -/
theorem C6_selector_count (o : VersionOptions) (cfg : VerzConfig) (w : World)
    (hsel : (selectorList o).length = 0 ∨ 2 ≤ (selectorList o).length) :
    (versionAction o cfg w).exitCode = 1 ∧
    (versionAction o cfg w).world = w := by
  refine versionAction_selectors o cfg w ?_
  rcases hsel with h | h <;> omega

/-- C6 witness: zero selectors and two selectors both abort a concrete run
without touching the world. -/
theorem C6_selector_count_witness :
    (selectorList oNone).length = 0 ∧
    (versionAction oNone cfgR wClean).exitCode = 1 ∧
    (versionAction oNone cfgR wClean).world = wClean ∧
    (selectorList oTwoSel).length = 2 ∧
    (versionAction oTwoSel cfgR wClean).exitCode = 1 ∧
    (versionAction oTwoSel cfgR wClean).world = wClean := by
  have h1 := C6_selector_count oNone cfgR wClean (Or.inl rfl)
  have h2 := C6_selector_count oTwoSel cfgR wClean (Or.inr (by decide))
  exact ⟨rfl, h1.1, h1.2, rfl, h2.1, h2.2⟩

/-- C7: a failure in the commit/tag phase after the manifest write is
caught locally and logged, and the stash restoration still runs — but the
`version` command then completes with exit code 0, not the claimed exit
code 1 (`C7_version_commitfail_exit0`); only the `release` command
reports such a failure with exit code 1. -/
theorem C7_commitfail_paths (o : VersionOptions) (ro : ReleaseOptions)
    (cfg : VerzConfig) (w : World) (nv cv rnv : String)
    (hd : cfg.dryRun = false) (hb : w.git.behindCount = 0)
    (hclean : w.git.statusPkg = "") (hsel : (selectorList o).length = 1)
    (hres : versionResolve o (pkgVersionOf w) = some nv)
    (hc : cfg.commit.enabled = true) (hcf : w.git.commitFails = true)
    (hp : pkgVersionOf w = some cv)
    (hrv : releaseNewVersion (pfxTruthy cfg.release.pfx) cv = .ok rnv) :
    (versionAction o cfg w).exitCode = 0 ∧
    LogEntry.errorCommitTagFailed ∈ (versionAction o cfg w).logs ∧
    (versionAction o cfg w).world.git.stashCount = w.git.stashCount ∧
    (releaseAction ro cfg w).exitCode = 1 ∧
    LogEntry.errorReleaseCommitTagFailed ∈ (releaseAction ro cfg w).logs := by
  obtain ⟨h0, _, hsc, hmem⟩ :=
    versionAction_real_spec o cfg w nv hd hb hclean hsel hres
  obtain ⟨r1, rmem⟩ := releaseAction_commitFail ro cfg w cv rnv hd hc hcf hp hrv
  exact ⟨h0, hmem hc hcf, hsc, r1, rmem⟩

/-- C7 witness: a concrete failing `git commit` on both commands. -/
theorem C7_commitfail_witness :
    wCommitFail.git.commitFails = true ∧
    (versionAction oPatch cfgR wCommitFail).exitCode = 0 ∧
    LogEntry.errorCommitTagFailed ∈ (versionAction oPatch cfgR wCommitFail).logs ∧
    (versionAction oPatch cfgR wCommitFail).world.git.stashCount =
      wCommitFail.git.stashCount ∧
    (releaseAction oRel cfgR wCommitFail).exitCode = 1 ∧
    LogEntry.errorReleaseCommitTagFailed ∈
      (releaseAction oRel cfgR wCommitFail).logs := by
  have h := C7_commitfail_paths oPatch oRel cfgR wCommitFail
    "1.2.1" "1.2.0" "1.2.0-qa-r1" rfl rfl rfl rfl rfl rfl rfl rfl rfl
  exact ⟨rfl, h.1, h.2.1, h.2.2.1, h.2.2.2.1, h.2.2.2.2⟩

/-- C7 counterexample: on a repository with unstaged diffs whose
`git commit` fails, a real patch run logs the caught failure and pops its
stash, yet exits with code 0 — refuting the claim's "nevertheless
reported as failed with exit code 1". -/
theorem C7_version_commitfail_exit0 :
    wCommitFail.git.commitFails = true ∧
    wCommitFail.git.diffHead ≠ "" ∧
    (versionAction oPatch cfgR wCommitFail).logs =
      [.infoCurrentVersion (some "1.2.0"), .debugUpdatingPkg,
       .infoCommitting "chore: version 1.2.1", .errorCommitTagFailed] ∧
    (versionAction oPatch cfgR wCommitFail).world.git.stashPops =
      wCommitFail.git.stashPops + 1 ∧
    (versionAction oPatch cfgR wCommitFail).exitCode = 0 :=
  ⟨rfl, by decide, rfl, rfl, rfl⟩

/-- C8: a `version`-command bump that rewrites the manifest re-serializes
it with the detected indentation — the file's first leading run of tabs
stays tabs, a run of spaces stays as that run of spaces, two spaces are
the default when no indentation is detectable — and ends the file with a
single trailing newline (the last two characters are the closing brace
and one newline).  The claim's "every bump" is refuted by
`C8_release_indent_lost`: the `release` command writes a hardcoded
two-space indent. -/
theorem C8_version_indent (o : VersionOptions) (cfg : VerzConfig) (w : World)
    (nv : String) (hd : cfg.dryRun = false) (hb : w.git.behindCount = 0)
    (hclean : w.git.statusPkg = "") (hsel : (selectorList o).length = 1)
    (hres : versionResolve o (pkgVersionOf w) = some nv) :
    (versionAction o cfg w).world.manifestRaw =
      stringifyPkg (setPkgVersion w.manifestPkg nv)
        (detectIndent w.manifestRaw) ++ "\n" ∧
    (∀ t, firstIndentOf w.manifestRaw = some t →
      detectIndent w.manifestRaw = String.mk t ∧ t ≠ [] ∧
      (t.all (· = '\t') = true ∨ t.all (· = ' ') = true)) ∧
    (firstIndentOf w.manifestRaw = none → detectIndent w.manifestRaw = "  ") ∧
    (∀ l ∈ splitOnChar '\n'
        (stringifyPkg (setPkgVersion w.manifestPkg nv)
          (detectIndent w.manifestRaw)).toList,
      l = [braceO] ∨ l = [braceC] ∨
        isPrefixOfList ((detectIndent w.manifestRaw).toList.take 10) l = true) ∧
    (∃ l0, (versionAction o cfg w).world.manifestRaw.toList =
      l0 ++ [braceC, '\n']) := by
  obtain ⟨_, hraw, _, _⟩ :=
    versionAction_real_spec o cfg w nv hd hb hclean hsel hres
  have hraw' : (versionAction o cfg w).world.manifestRaw =
      stringifyPkg (setPkgVersion w.manifestPkg nv)
        (detectIndent w.manifestRaw) ++ "\n" := hraw
  refine ⟨hraw', ?_, detectIndent_default w.manifestRaw, ?_, ?_⟩
  · intro t ht
    obtain ⟨a, ha⟩ := firstIndent_from_line w.manifestRaw t ht
    refine ⟨detectIndent_of_first w.manifestRaw t ht, ?_, ?_⟩
    · rcases lineIndent_shape a t ha with ⟨t', rfl, _⟩ | ⟨t', rfl, _⟩ <;> simp
    · rcases lineIndent_shape a t ha with ⟨t', _, hall⟩ | ⟨t', _, hall⟩
      · exact Or.inl hall
      · exact Or.inr hall
  · exact stringify_lines _ _ (setPkgVersion_ne_nil w.manifestPkg nv)
      (detectIndent_no_newline w.manifestRaw)
  · obtain ⟨l0, hl0⟩ := stringify_ends_brace (setPkgVersion w.manifestPkg nv)
      (detectIndent w.manifestRaw)
    refine ⟨l0, ?_⟩
    rw [hraw', toList_append, hl0,
        show ("\n" : String).toList = ['\n'] from rfl]
    simp

/-- C8 witness: a concrete tab-indented manifest keeps its tabs through a
real patch bump. -/
theorem C8_version_indent_witness :
    detectIndent wTab.manifestRaw = "\t" ∧
    (versionAction oPatch cfgR wTab).world.manifestRaw =
      stringifyPkg (setPkgVersion wTab.manifestPkg "1.2.1")
        (detectIndent wTab.manifestRaw) ++ "\n" ∧
    (versionAction oPatch cfgR wTab).world.manifestRaw =
      "\x7b\n\t\"name\": \"app\",\n\t\"version\": \"1.2.1\"\n\x7d\n" := by
  have h := C8_version_indent oPatch cfgR wTab "1.2.1" rfl rfl rfl rfl rfl
  exact ⟨rfl, h.1, rfl⟩

/-- C8 counterexample: the `release` command rewrites the same
tab-indented manifest with the hardcoded two-space indent, so the
rewritten file no longer uses tabs — refuting the claim's "every bump
that rewrites the manifest". -/
theorem C8_release_indent_lost :
    detectIndent wTab.manifestRaw = "\t" ∧
    cfgR.dryRun = false ∧
    (releaseAction oRel cfgR wTab).world.manifestRaw =
      "\x7b\n  \"name\": \"app\",\n  \"version\": \"1.2.0-qa-r1\"\n\x7d\n" ∧
    detectIndent (releaseAction oRel cfgR wTab).world.manifestRaw = "  " ∧
    ("  " : String) ≠ "\t" :=
  ⟨rfl, rfl, rfl, rfl, by decide⟩

/-- C9: in tag-only mode with tagging disabled in the effective
configuration and a truthy current version, the run reports the
disabled-tagging condition, exits with code 1, and returns the world
unchanged — in particular no tag is created. -/
theorem C9_tag_disabled (to' : TagOptions) (cfg : VerzConfig) (w : World)
    (cv : String) (hp : pkgVersionOf w = some cv) (hcv : cv ≠ "")
    (ht : cfg.tag.enabled = false) :
    tagAction to' cfg w =
      ⟨w, 1, bannerLogs to'.dryRun ++
             [.infoCurrentVersion (some cv), .errorTagDisabled]⟩ :=
  tagAction_disabled to' cfg w cv hp hcv ht

/-- C9 witness: tagging disabled on a concrete world with version
`1.2.0`. -/
theorem C9_tag_disabled_witness :
    pkgVersionOf wClean = some "1.2.0" ∧
    cfgNoTag.tag.enabled = false ∧
    tagAction oTag cfgNoTag wClean =
      ⟨wClean, 1, [.infoCurrentVersion (some "1.2.0"), .errorTagDisabled]⟩ ∧
    (tagAction oTag cfgNoTag wClean).world.git.tags = wClean.git.tags := by
  have h := C9_tag_disabled oTag cfgNoTag wClean "1.2.0" rfl (by decide) rfl
  exact ⟨rfl, rfl, h, by rw [h]⟩

/-- C10 (implicit from `exec`): under dry-run every `exec` call returns
the empty string without spawning the command, so every git-derived guard
of the version command is vacuous — the world (including the subprocess
and stash counters) is unchanged and neither the dirty-manifest error nor
the branch-behind error can ever be logged, whatever the repository's
real state. -/
theorem C10_dry_exec_vacuous (o : VersionOptions) (cfg : VerzConfig)
    (w : World) (c : GitCmd) (i : Bool) (hd : cfg.dryRun = true) :
    exec cfg c i w = (false, "", w) ∧
    (versionAction o cfg w).world = w ∧
    (∀ e, (e = .errorPkgDirty ∨ ∃ b, e = .errorBranchBehind b) →
      e ∉ (versionAction o cfg w).logs) ∧
    (versionAction o cfg w).world.git.spawned = w.git.spawned ∧
    (versionAction o cfg w).world.git.stashPushes = w.git.stashPushes := by
  have hw := versionAction_dry_world o cfg w hd
  exact ⟨exec_dry cfg c i w hd, hw,
         fun e he => versionAction_dry_guard_free o cfg w hd e he,
         by rw [hw], by rw [hw]⟩

/-- C10 witness: a dry run on a dirty repository — the status guard is
vacuous, nothing is spawned, and the run exits 0. -/
theorem C10_dry_exec_vacuous_witness :
    cfgDry.dryRun = true ∧
    wDirty.git.statusPkg ≠ "" ∧
    exec cfgDry .statusPkg true wDirty = (false, "", wDirty) ∧
    (versionAction oPatch cfgDry wDirty).world = wDirty ∧
    LogEntry.errorPkgDirty ∉ (versionAction oPatch cfgDry wDirty).logs ∧
    (versionAction oPatch cfgDry wDirty).exitCode = 0 := by
  have h := C10_dry_exec_vacuous oPatch cfgDry wDirty .statusPkg true rfl
  exact ⟨rfl, by decide, h.1, h.2.1, h.2.2.1 _ (Or.inl rfl), rfl⟩
